import Mathlib

/-!
Verification of the computational core of the Galaxy repository: the Hilbert
index (`src/hilbert.rs`), the sparse quadtree (`src/quadtree.rs`) and the
Barnes-Hut force evaluator / integrator (`src/galaxy.rs`).

Modelling conventions:
* `u32`/`u8`/`usize` values are modelled as `ℕ`; on the valid input ranges the
  claims quantify over, the Rust arithmetic never wraps, so this is exact.
* `f64` values are modelled as `ℚ`.  The only `f64` operation of the core that
  is not exact field arithmetic is `f64::sqrt`, which is passed to the
  affected definitions as an explicit function parameter `sqrt : ℚ → ℚ`.
* Rust `while`/`for` loops whose termination depends on the heap contents are
  translated to fuel-indexed recursions returning `Option`; `none` models a
  non-terminating loop or a `panic!`/`expect` abort, so `= some t` states that
  the source loop terminates normally with result `t`.
-/

/-- `Vec2d` from `src/types.rs`, with `f64` modelled as `ℚ`. -/
structure Vec2d where
  x : ℚ
  y : ℚ
deriving DecidableEq, Repr

instance : Add Vec2d := ⟨fun a b => ⟨a.x + b.x, a.y + b.y⟩⟩

instance : Sub Vec2d := ⟨fun a b => ⟨a.x - b.x, a.y - b.y⟩⟩

instance : HMul Vec2d ℚ Vec2d := ⟨fun a s => ⟨a.x * s, a.y * s⟩⟩

instance : HDiv Vec2d ℚ Vec2d := ⟨fun a s => ⟨a.x / s, a.y / s⟩⟩

theorem Vec2d.add_def (a b : Vec2d) : a + b = ⟨a.x + b.x, a.y + b.y⟩ := rfl

theorem Vec2d.sub_def (a b : Vec2d) : a - b = ⟨a.x - b.x, a.y - b.y⟩ := rfl

/-- `HilbertIndex` from `src/hilbert.rs`: a raw index (`u32`) and a depth (`u8`). -/
structure HilbertIndex where
  index : ℕ
  depth : ℕ
deriving DecidableEq, Repr

namespace HilbertIndex

/-- `HilbertIndex::rot` from `src/hilbert.rs`: rotate/flip a quadrant.
The Rust function mutates `x`/`y` in place (reflect about `n-1` when
`rx == 1`, then swap); this returns the resulting pair `(x, y)`. -/
def rot (n x y rx ry : ℕ) : ℕ × ℕ :=
  if ry = 0 then
    if rx = 1 then (n - 1 - y, n - 1 - x)
    else (y, x)
  else (x, y)

/-- The `while s > 0` loop of `HilbertIndex::from_xy_depth`, accumulating `d`.
`s` halves each iteration, so the recursion is well-founded on `s`. -/
def fromXYLoop (n : ℕ) : ℕ → ℕ → ℕ → ℕ
  | s, x, y =>
    if h : s = 0 then 0
    else
      let rx := if 0 < x &&& s then 1 else 0
      let ry := if 0 < y &&& s then 1 else 0
      let p := rot n x y rx ry
      s * s * ((3 * rx) ^^^ ry) + fromXYLoop n (s / 2) p.1 p.2
termination_by s => s
decreasing_by exact Nat.div_lt_self (Nat.pos_of_ne_zero h) (by omega)

/-- `HilbertIndex::from_xy_depth` from `src/hilbert.rs`:
`n = 1 << depth`, `s` starts at `n / 2`. -/
def fromXYDepth (xy : ℕ × ℕ) (depth : ℕ) : HilbertIndex :=
  ⟨fromXYLoop (2 ^ depth) (2 ^ depth / 2) xy.1 xy.2, depth⟩

/-- One iteration of the `while s < n` loop body of `HilbertIndex::to_xy`:
given the current `s`, the current `t` and the accumulated `(x, y)`, produce
the next accumulated `(x, y)`. -/
def toXYStep (s t : ℕ) (p : ℕ × ℕ) : ℕ × ℕ :=
  let rx := 1 &&& (t / 2)
  let ry := 1 &&& (t ^^^ rx)
  let q := rot s p.1 p.2 rx ry
  (q.1 + s * rx, q.2 + s * ry)

/-- The `while s < n` loop of `HilbertIndex::to_xy`.  Starting from `s = 1`
and doubling, the loop with bound `n = 2 ^ depth` runs exactly `depth`
iterations, which is the `steps` argument here. -/
def toXYLoop : ℕ → ℕ → ℕ → ℕ × ℕ → ℕ × ℕ
  | 0, _, _, p => p
  | steps + 1, s, t, p => toXYLoop steps (s * 2) (t / 4) (toXYStep s t p)

/-- `HilbertIndex::to_xy` from `src/hilbert.rs`. -/
def toXY (h : HilbertIndex) : ℕ × ℕ :=
  toXYLoop h.depth 1 h.index (0, 0)

/-- `HilbertIndex::children` from `src/hilbert.rs`: the four indices
`4*index + 0..3` at `depth + 1`. -/
def children (h : HilbertIndex) : List HilbertIndex :=
  [⟨h.index * 4 + 0, h.depth + 1⟩, ⟨h.index * 4 + 1, h.depth + 1⟩,
   ⟨h.index * 4 + 2, h.depth + 1⟩, ⟨h.index * 4 + 3, h.depth + 1⟩]

end HilbertIndex

namespace HilbertIndex

/-! Auxiliary facts about the bit operations used by the two loops. -/

theorem one_land (u : ℕ) : 1 &&& u = u % 2 := by
  rw [Nat.land_comm, Nat.and_one_is_mod]

theorem mod_two_eq_toNat_testBit (x : ℕ) : x % 2 = (x.testBit 0).toNat := by
  rw [Nat.testBit_to_div_mod]
  simp only [pow_zero, Nat.div_one]
  rcases Nat.mod_two_eq_zero_or_one x with h | h <;> simp [h]

theorem xor_mod_two (a b : ℕ) : (a ^^^ b) % 2 = a % 2 ^^^ b % 2 := by
  rw [mod_two_eq_toNat_testBit, mod_two_eq_toNat_testBit, mod_two_eq_toNat_testBit,
    Nat.testBit_xor]
  cases ha : a.testBit 0 <;> cases hb : b.testBit 0 <;> rfl

theorem land_two_pow_ite (x k : ℕ) :
    (if 0 < x &&& 2 ^ k then 1 else 0) = x / 2 ^ k % 2 := by
  rw [Nat.and_two_pow]
  have ht := @Nat.testBit_to_div_mod k x
  cases h : x.testBit k <;> rw [h] at ht <;> simp at ht <;>
    simp [ht, Nat.pos_pow_of_pos]

theorem reflect_mod {P : ℕ} (hP : 0 < P) (b y : ℕ) (hy : y < P * b) :
    (P * b - 1 - y) % P = P - 1 - y % P := by
  have hm : y % P < P := Nat.mod_lt _ hP
  have hdm : P * (y / P) + y % P = y := Nat.div_add_mod y P
  have hab : y / P < b := by
    by_contra hcon
    push_neg at hcon
    have := Nat.mul_le_mul_left P hcon
    omega
  obtain ⟨c, hc⟩ : ∃ c, b = y / P + 1 + c := ⟨b - y / P - 1, by omega⟩
  subst hc
  have hmul : P * (y / P + 1 + c) = P * (y / P) + P + P * c := by ring
  have key : P * (y / P + 1 + c) - 1 - y = P - 1 - y % P + P * c := by omega
  rw [key, Nat.add_mul_mod_self_left]
  exact Nat.mod_eq_of_lt (by omega)

/-- Top-down restatement of the `from_xy_depth` loop: the bit-plane `2 ^ k`
is processed first and the coordinates are kept reduced modulo the current
cell size, which makes the grid size `n` of the source loop irrelevant. -/
def fxy : ℕ → ℕ → ℕ → ℕ
  | 0, _, _ => 0
  | k + 1, x, y =>
    2 ^ k * 2 ^ k * (3 * (x / 2 ^ k) ^^^ y / 2 ^ k) +
      (if y / 2 ^ k = 0 then
        if x / 2 ^ k = 1 then fxy k (2 ^ k - 1 - y % 2 ^ k) (2 ^ k - 1 - x % 2 ^ k)
        else fxy k (y % 2 ^ k) (x % 2 ^ k)
      else fxy k (x % 2 ^ k) (y % 2 ^ k))

/-- Top-down restatement of the `to_xy` loop: the final loop iteration
(quadrant bits `t / 4 ^ k`) is applied outermost. -/
def txy : ℕ → ℕ → ℕ × ℕ
  | 0, _ => (0, 0)
  | k + 1, t => toXYStep (2 ^ k) (t / 4 ^ k) (txy k t)

end HilbertIndex

namespace HilbertIndex

theorem toXYLoop_succ_outer : ∀ (k s t : ℕ) (p : ℕ × ℕ),
    toXYLoop (k + 1) s t p = toXYStep (s * 2 ^ k) (t / 4 ^ k) (toXYLoop k s t p) := by
  intro k
  induction k with
  | zero => intro s t p; simp [toXYLoop]
  | succ k ih =>
    intro s t p
    have h1 : toXYLoop (k + 1 + 1) s t p
        = toXYLoop (k + 1) (s * 2) (t / 4) (toXYStep s t p) := rfl
    rw [h1, ih]
    have h2 : s * 2 * 2 ^ k = s * 2 ^ (k + 1) := by ring
    have h3 : t / 4 / 4 ^ k = t / 4 ^ (k + 1) := by
      rw [Nat.div_div_eq_div_mul]
      congr 1
      ring
    rw [h2, h3]
    rfl

theorem toXY_eq_txy (d t : ℕ) : toXY ⟨t, d⟩ = txy d t := by
  show toXYLoop d 1 t (0, 0) = txy d t
  induction d with
  | zero => rfl
  | succ k ih =>
    rw [toXYLoop_succ_outer, ih, one_mul]
    rfl

theorem toXYStep_mod (s t : ℕ) (p : ℕ × ℕ) : toXYStep s (t % 4) p = toXYStep s t p := by
  simp only [toXYStep]
  have h1 : t % 4 / 2 = t / 2 % 2 := by omega
  have hrx : 1 &&& (t % 4 / 2) = 1 &&& (t / 2) := by
    rw [one_land, one_land, h1]
    omega
  rw [hrx]
  have hry : 1 &&& (t % 4 ^^^ 1 &&& (t / 2)) = 1 &&& (t ^^^ 1 &&& (t / 2)) := by
    rw [one_land (t % 4 ^^^ 1 &&& (t / 2)), one_land (t ^^^ 1 &&& (t / 2)),
      xor_mod_two (t % 4), xor_mod_two t]
    have h2 : t % 4 % 2 = t % 2 := by omega
    rw [h2]
  rw [hry]

/-- Case characterisation of one `to_xy` loop iteration by quadrant value. -/
theorem toXYStep_cases (s t : ℕ) (p : ℕ × ℕ) :
    toXYStep s t p =
      if t % 4 = 0 then (p.2, p.1)
      else if t % 4 = 1 then (p.1, p.2 + s)
      else if t % 4 = 2 then (p.1 + s, p.2 + s)
      else (s - 1 - p.2 + s, s - 1 - p.1) := by
  rw [← toXYStep_mod]
  have h4 : t % 4 = 0 ∨ t % 4 = 1 ∨ t % 4 = 2 ∨ t % 4 = 3 := by omega
  rcases h4 with h | h | h | h <;> rw [h] <;> simp [toXYStep, rot]

theorem txy_mod : ∀ (k t : ℕ), txy k (t % 4 ^ k) = txy k t := by
  intro k
  induction k with
  | zero => intro t; rfl
  | succ k ih =>
    intro t
    show toXYStep (2 ^ k) (t % 4 ^ (k + 1) / 4 ^ k) (txy k (t % 4 ^ (k + 1))) = _
    have h1 : t % 4 ^ (k + 1) / 4 ^ k = t / 4 ^ k % 4 := by
      rw [pow_succ, Nat.mod_mul_right_div_self]
    have h3 : t % 4 ^ (k + 1) % 4 ^ k = t % 4 ^ k :=
      Nat.mod_mod_of_dvd t (pow_dvd_pow 4 (Nat.le_succ k))
    have h2 : txy k (t % 4 ^ (k + 1)) = txy k t := by
      calc txy k (t % 4 ^ (k + 1)) = txy k (t % 4 ^ (k + 1) % 4 ^ k) :=
            (ih (t % 4 ^ (k + 1))).symm
        _ = txy k (t % 4 ^ k) := by rw [h3]
        _ = txy k t := ih t
    rw [h1, h2, toXYStep_mod]
    rfl

theorem txy_lt : ∀ k t, (txy k t).1 < 2 ^ k ∧ (txy k t).2 < 2 ^ k := by
  intro k
  induction k with
  | zero => intro t; exact ⟨Nat.zero_lt_one, Nat.zero_lt_one⟩
  | succ k ih =>
    intro t
    obtain ⟨h1, h2⟩ := ih t
    show (toXYStep (2 ^ k) (t / 4 ^ k) (txy k t)).1 < 2 ^ (k + 1) ∧
      (toXYStep (2 ^ k) (t / 4 ^ k) (txy k t)).2 < 2 ^ (k + 1)
    rw [toXYStep_cases]
    have hps : 2 ^ (k + 1) = 2 ^ k * 2 := by rw [pow_succ]
    split_ifs <;> constructor <;> simp only [] <;> omega

end HilbertIndex

namespace HilbertIndex

theorem ite_land_one (u : ℕ) : (if 0 < u &&& 1 then 1 else 0) = u % 2 := by
  rw [Nat.and_one_is_mod]
  split_ifs with h <;> omega

theorem fromXYLoop_zero (n x y : ℕ) : fromXYLoop n 0 x y = 0 := by
  rw [fromXYLoop]
  simp

theorem fromXYLoop_succ (n s x y : ℕ) (hs : s ≠ 0) :
    fromXYLoop n s x y =
      s * s * (3 * (if 0 < x &&& s then 1 else 0) ^^^ (if 0 < y &&& s then 1 else 0)) +
        fromXYLoop n (s / 2)
          (rot n x y (if 0 < x &&& s then 1 else 0) (if 0 < y &&& s then 1 else 0)).1
          (rot n x y (if 0 < x &&& s then 1 else 0) (if 0 < y &&& s then 1 else 0)).2 := by
  conv_lhs => rw [fromXYLoop]
  simp [hs]

theorem mod_pow_succ_div (x k : ℕ) : x % 2 ^ (k + 1) / 2 ^ k = x / 2 ^ k % 2 := by
  rw [pow_succ, Nat.mod_mul_right_div_self]

theorem mod_pow_succ_mod (x k : ℕ) : x % 2 ^ (k + 1) % 2 ^ k = x % 2 ^ k :=
  Nat.mod_mod_of_dvd x (pow_dvd_pow 2 (Nat.le_succ k))

end HilbertIndex

namespace HilbertIndex

theorem fxy_succ (k x y : ℕ) :
    fxy (k + 1) x y = 2 ^ k * 2 ^ k * (3 * (x / 2 ^ k) ^^^ y / 2 ^ k) +
      (if y / 2 ^ k = 0 then
        if x / 2 ^ k = 1 then fxy k (2 ^ k - 1 - y % 2 ^ k) (2 ^ k - 1 - x % 2 ^ k)
        else fxy k (y % 2 ^ k) (x % 2 ^ k)
      else fxy k (x % 2 ^ k) (y % 2 ^ k)) := rfl

theorem fromXYLoop_eq_fxy : ∀ (k n x y : ℕ), 2 ^ (k + 1) ∣ n → x < n → y < n →
    fromXYLoop n (2 ^ k) x y = fxy (k + 1) (x % 2 ^ (k + 1)) (y % 2 ^ (k + 1)) := by
  intro k
  induction k with
  | zero =>
    intro n x y _ _ _
    rw [show (2:ℕ) ^ 0 = 1 from rfl, fromXYLoop_succ n 1 x y one_ne_zero,
      ite_land_one, ite_land_one]
    simp [fxy_succ, fxy, fromXYLoop_zero]
  | succ k ih =>
    intro n x y hdvd hx hy
    have hn : 0 < n := lt_of_le_of_lt (Nat.zero_le x) hx
    have hsp : 0 < (2:ℕ) ^ (k + 1) := Nat.pos_pow_of_pos _ (by omega)
    have hdvd1 : (2:ℕ) ^ (k + 1) ∣ n :=
      dvd_trans (pow_dvd_pow 2 (Nat.le_succ (k + 1))) hdvd
    have hhalf : (2:ℕ) ^ (k + 1) / 2 = 2 ^ k := by
      rw [pow_succ]
      exact Nat.mul_div_cancel _ (by omega)
    rw [fromXYLoop_succ n (2 ^ (k + 1)) x y hsp.ne', land_two_pow_ite x (k + 1),
      land_two_pow_ite y (k + 1), hhalf, fxy_succ (k + 1), mod_pow_succ_div x (k + 1),
      mod_pow_succ_div y (k + 1), mod_pow_succ_mod x (k + 1), mod_pow_succ_mod y (k + 1)]
    rcases Nat.mod_two_eq_zero_or_one (x / 2 ^ (k + 1)) with hrx | hrx <;>
      rcases Nat.mod_two_eq_zero_or_one (y / 2 ^ (k + 1)) with hry | hry
    · -- rx = 0, ry = 0: swap branch
      rw [hrx, hry]
      have hro : rot n x y 0 0 = (y, x) := by simp [rot]
      rw [hro]
      simp only [Prod.fst, Prod.snd]
      rw [ih n y x hdvd1 hy hx]
      simp
    · -- rx = 0, ry = 1: identity branch
      rw [hrx, hry]
      have hro : rot n x y 0 1 = (x, y) := by simp [rot]
      rw [hro]
      simp only [Prod.fst, Prod.snd]
      rw [ih n x y hdvd1 hx hy]
      simp
    · -- rx = 1, ry = 0: reflect-and-swap branch
      rw [hrx, hry]
      have hro : rot n x y 1 0 = (n - 1 - y, n - 1 - x) := by simp [rot]
      rw [hro]
      simp only [Prod.fst, Prod.snd]
      rw [ih n (n - 1 - y) (n - 1 - x) hdvd1 (by omega) (by omega)]
      obtain ⟨b, hb⟩ := hdvd1
      have hrefy : (n - 1 - y) % 2 ^ (k + 1) = 2 ^ (k + 1) - 1 - y % 2 ^ (k + 1) := by
        rw [hb]
        exact reflect_mod hsp b y (hb ▸ hy)
      have hrefx : (n - 1 - x) % 2 ^ (k + 1) = 2 ^ (k + 1) - 1 - x % 2 ^ (k + 1) := by
        rw [hb]
        exact reflect_mod hsp b x (hb ▸ hx)
      rw [hrefy, hrefx]
      simp
    · -- rx = 1, ry = 1: identity branch
      rw [hrx, hry]
      have hro : rot n x y 1 1 = (x, y) := by simp [rot]
      rw [hro]
      simp only [Prod.fst, Prod.snd]
      rw [ih n x y hdvd1 hx hy]
      simp

end HilbertIndex

namespace HilbertIndex

theorem txy_succ (k t : ℕ) : txy (k + 1) t = toXYStep (2 ^ k) (t / 4 ^ k) (txy k t) := rfl

theorem fromXYDepth_index_eq_fxy (d x y : ℕ) (hx : x < 2 ^ d) (hy : y < 2 ^ d) :
    (fromXYDepth (x, y) d).index = fxy d x y := by
  cases d with
  | zero =>
    show fromXYLoop (2 ^ 0) (2 ^ 0 / 2) x y = fxy 0 x y
    rw [show (2:ℕ) ^ 0 / 2 = 0 from rfl, fromXYLoop_zero]
    rfl
  | succ k =>
    show fromXYLoop (2 ^ (k + 1)) (2 ^ (k + 1) / 2) x y = fxy (k + 1) x y
    have hhalf : (2:ℕ) ^ (k + 1) / 2 = 2 ^ k := by
      rw [pow_succ]
      exact Nat.mul_div_cancel _ (by omega)
    rw [hhalf, fromXYLoop_eq_fxy k (2 ^ (k + 1)) x y dvd_rfl hx hy,
      Nat.mod_eq_of_lt hx, Nat.mod_eq_of_lt hy]

theorem fxy_lt : ∀ k x y, x < 2 ^ k → y < 2 ^ k → fxy k x y < 4 ^ k := by
  intro k
  induction k with
  | zero =>
    intro x y hx hy
    simp [fxy]
  | succ k ih =>
    intro x y hx hy
    rw [fxy_succ]
    have hsp : 0 < (2:ℕ) ^ k := Nat.pos_pow_of_pos _ (by omega)
    have hx2 : x < 2 * 2 ^ k := by rw [pow_succ] at hx; omega
    have hy2 : y < 2 * 2 ^ k := by rw [pow_succ] at hy; omega
    have hxd : x / 2 ^ k < 2 := (Nat.div_lt_iff_lt_mul hsp).mpr (by omega)
    have hyd : y / 2 ^ k < 2 := (Nat.div_lt_iff_lt_mul hsp).mpr (by omega)
    have h44 : (2:ℕ) ^ k * 2 ^ k = 4 ^ k := by
      rw [← Nat.mul_pow]
    have hp4 : (4:ℕ) ^ (k + 1) = 4 ^ k * 4 := by rw [pow_succ]
    have hxm : x % 2 ^ k < 2 ^ k := Nat.mod_lt _ hsp
    have hym : y % 2 ^ k < 2 ^ k := Nat.mod_lt _ hsp
    have ih1 := ih (y % 2 ^ k) (x % 2 ^ k) hym hxm
    have ih2 := ih (x % 2 ^ k) (y % 2 ^ k) hxm hym
    have ih3 := ih (2 ^ k - 1 - y % 2 ^ k) (2 ^ k - 1 - x % 2 ^ k) (by omega) (by omega)
    have hx01 : x / 2 ^ k = 0 ∨ x / 2 ^ k = 1 := by
      generalize x / 2 ^ k = a at hxd
      omega
    have hy01 : y / 2 ^ k = 0 ∨ y / 2 ^ k = 1 := by
      generalize y / 2 ^ k = a at hyd
      omega
    rcases hx01 with h1 | h1 <;> rcases hy01 with h2 | h2
    · rw [h1, h2, show (3 * 0 ^^^ (0:ℕ)) = 0 from rfl, h44]
      norm_num
      omega
    · rw [h1, h2, show (3 * 0 ^^^ (1:ℕ)) = 1 from rfl, h44]
      norm_num
      omega
    · rw [h1, h2, show (3 * 1 ^^^ (0:ℕ)) = 3 from rfl, h44]
      norm_num
      omega
    · rw [h1, h2, show (3 * 1 ^^^ (1:ℕ)) = 2 from rfl, h44]
      norm_num
      omega

theorem quad_div (k L r : ℕ) (hr : r < 4 ^ k) :
    (2 ^ k * 2 ^ k * L + r) / 4 ^ k = L := by
  have h44 : (2:ℕ) ^ k * 2 ^ k = 4 ^ k := by rw [← Nat.mul_pow]
  have hsp : 0 < (4:ℕ) ^ k := Nat.pos_pow_of_pos _ (by omega)
  rw [h44, Nat.mul_add_div hsp, Nat.div_eq_of_lt hr, add_zero]

theorem txy_quad (k L r : ℕ) (hr : r < 4 ^ k) :
    txy k (2 ^ k * 2 ^ k * L + r) = txy k r := by
  have h44 : (2:ℕ) ^ k * 2 ^ k = 4 ^ k := by rw [← Nat.mul_pow]
  rw [← txy_mod k (2 ^ k * 2 ^ k * L + r), h44, Nat.mul_add_mod (4 ^ k) L r,
    Nat.mod_eq_of_lt hr]

end HilbertIndex

namespace HilbertIndex

theorem txy_fxy : ∀ k x y, x < 2 ^ k → y < 2 ^ k → txy k (fxy k x y) = (x, y) := by
  intro k
  induction k with
  | zero =>
    intro x y hx hy
    rw [pow_zero] at hx hy
    have hx0 : x = 0 := by omega
    have hy0 : y = 0 := by omega
    subst hx0
    subst hy0
    rfl
  | succ k ih =>
    intro x y hx hy
    have hsp : 0 < (2:ℕ) ^ k := Nat.pos_pow_of_pos _ (by omega)
    have hx2 : x < 2 * 2 ^ k := by rw [pow_succ] at hx; omega
    have hy2 : y < 2 * 2 ^ k := by rw [pow_succ] at hy; omega
    have hxd : x / 2 ^ k < 2 := (Nat.div_lt_iff_lt_mul hsp).mpr (by omega)
    have hyd : y / 2 ^ k < 2 := (Nat.div_lt_iff_lt_mul hsp).mpr (by omega)
    have hxm : x % 2 ^ k < 2 ^ k := Nat.mod_lt _ hsp
    have hym : y % 2 ^ k < 2 ^ k := Nat.mod_lt _ hsp
    have hxdm := Nat.div_add_mod x (2 ^ k)
    have hydm := Nat.div_add_mod y (2 ^ k)
    have hx01 : x / 2 ^ k = 0 ∨ x / 2 ^ k = 1 := by
      generalize x / 2 ^ k = a at hxd
      omega
    have hy01 : y / 2 ^ k = 0 ∨ y / 2 ^ k = 1 := by
      generalize y / 2 ^ k = a at hyd
      omega
    rw [txy_succ, fxy_succ]
    rcases hx01 with h1 | h1 <;> rcases hy01 with h2 | h2
    · -- rx = 0, ry = 0: swap branch, quadrant 0
      rw [h1, h2, show (3 * 0 ^^^ (0:ℕ)) = 0 from rfl, mul_zero, zero_add,
        if_pos rfl, if_neg (by norm_num : ¬(0:ℕ) = 1),
        Nat.div_eq_of_lt (fxy_lt k _ _ hym hxm), ih (y % 2 ^ k) (x % 2 ^ k) hym hxm,
        toXYStep_cases]
      norm_num
      rw [h1] at hxdm
      rw [h2] at hydm
      omega
    · -- rx = 0, ry = 1: quadrant 1
      rw [h1, h2, show (3 * 0 ^^^ (1:ℕ)) = 1 from rfl,
        if_neg (by norm_num : ¬(1:ℕ) = 0),
        quad_div k 1 _ (fxy_lt k _ _ hxm hym), txy_quad k 1 _ (fxy_lt k _ _ hxm hym),
        ih (x % 2 ^ k) (y % 2 ^ k) hxm hym, toXYStep_cases]
      norm_num
      rw [h1] at hxdm
      rw [h2] at hydm
      omega
    · -- rx = 1, ry = 0: reflect branch, quadrant 3
      rw [h1, h2, show (3 * 1 ^^^ (0:ℕ)) = 3 from rfl, if_pos rfl, if_pos rfl,
        quad_div k 3 _ (fxy_lt k _ _ (by omega) (by omega)),
        txy_quad k 3 _ (fxy_lt k _ _ (by omega) (by omega)),
        ih (2 ^ k - 1 - y % 2 ^ k) (2 ^ k - 1 - x % 2 ^ k) (by omega) (by omega),
        toXYStep_cases]
      norm_num
      rw [h1] at hxdm
      rw [h2] at hydm
      omega
    · -- rx = 1, ry = 1: quadrant 2
      rw [h1, h2, show (3 * 1 ^^^ (1:ℕ)) = 2 from rfl,
        if_neg (by norm_num : ¬(1:ℕ) = 0),
        quad_div k 2 _ (fxy_lt k _ _ hxm hym), txy_quad k 2 _ (fxy_lt k _ _ hxm hym),
        ih (x % 2 ^ k) (y % 2 ^ k) hxm hym, toXYStep_cases]
      norm_num
      rw [h1] at hxdm
      rw [h2] at hydm
      omega

end HilbertIndex

namespace HilbertIndex

theorem fxy_txy : ∀ k t, t < 4 ^ k → fxy k (txy k t).1 (txy k t).2 = t := by
  intro k
  induction k with
  | zero =>
    intro t ht
    rw [pow_zero] at ht
    have ht0 : t = 0 := by omega
    subst ht0
    rfl
  | succ k ih =>
    intro t ht
    have hsp : 0 < (2:ℕ) ^ k := Nat.pos_pow_of_pos _ (by omega)
    have hsp4 : 0 < (4:ℕ) ^ k := Nat.pos_pow_of_pos _ (by omega)
    have h44 : (2:ℕ) ^ k * 2 ^ k = 4 ^ k := by rw [← Nat.mul_pow]
    have ht2 : t < 4 ^ k * 4 := by rw [pow_succ] at ht; omega
    have hq : t / 4 ^ k < 4 := (Nat.div_lt_iff_lt_mul hsp4).mpr (by omega)
    have hr : t % 4 ^ k < 4 ^ k := Nat.mod_lt _ hsp4
    have hdm := Nat.div_add_mod t (4 ^ k)
    obtain ⟨hp1, hp2⟩ := txy_lt k (t % 4 ^ k)
    have ihr := ih (t % 4 ^ k) hr
    have hq4 : t / 4 ^ k = 0 ∨ t / 4 ^ k = 1 ∨ t / 4 ^ k = 2 ∨ t / 4 ^ k = 3 := by
      generalize t / 4 ^ k = a at hq
      omega
    rw [txy_succ, ← txy_mod k t]
    rcases hq4 with h | h | h | h <;> rw [h] at hdm <;> rw [h, toXYStep_cases] <;>
      norm_num
    · -- quadrant 0: coordinates swapped
      rw [fxy_succ, Nat.div_eq_of_lt hp2, Nat.div_eq_of_lt hp1,
        show (3 * 0 ^^^ (0:ℕ)) = 0 from rfl, if_pos rfl,
        if_neg (by norm_num : ¬(0:ℕ) = 1), Nat.mod_eq_of_lt hp1, Nat.mod_eq_of_lt hp2,
        ihr, h44]
      omega
    · -- quadrant 1: y offset by the cell size
      have e1 : ((txy k (t % 4 ^ k)).2 + 2 ^ k) / 2 ^ k = 1 := by
        rw [Nat.add_div_right _ hsp, Nat.div_eq_of_lt hp2]
      have e2 : ((txy k (t % 4 ^ k)).2 + 2 ^ k) % 2 ^ k = (txy k (t % 4 ^ k)).2 := by
        rw [Nat.add_mod_right, Nat.mod_eq_of_lt hp2]
      rw [fxy_succ, Nat.div_eq_of_lt hp1, e1, show (3 * 0 ^^^ (1:ℕ)) = 1 from rfl,
        if_neg (by norm_num : ¬(1:ℕ) = 0), Nat.mod_eq_of_lt hp1, e2, ihr, h44]
      omega
    · -- quadrant 2: both coordinates offset by the cell size
      have e1 : ((txy k (t % 4 ^ k)).1 + 2 ^ k) / 2 ^ k = 1 := by
        rw [Nat.add_div_right _ hsp, Nat.div_eq_of_lt hp1]
      have e2 : ((txy k (t % 4 ^ k)).2 + 2 ^ k) / 2 ^ k = 1 := by
        rw [Nat.add_div_right _ hsp, Nat.div_eq_of_lt hp2]
      have e3 : ((txy k (t % 4 ^ k)).1 + 2 ^ k) % 2 ^ k = (txy k (t % 4 ^ k)).1 := by
        rw [Nat.add_mod_right, Nat.mod_eq_of_lt hp1]
      have e4 : ((txy k (t % 4 ^ k)).2 + 2 ^ k) % 2 ^ k = (txy k (t % 4 ^ k)).2 := by
        rw [Nat.add_mod_right, Nat.mod_eq_of_lt hp2]
      rw [fxy_succ, e1, e2, show (3 * 1 ^^^ (1:ℕ)) = 2 from rfl,
        if_neg (by norm_num : ¬(1:ℕ) = 0), e3, e4, ihr, h44]
      omega
    · -- quadrant 3: reflected and swapped
      have e1 : (2 ^ k - 1 - (txy k (t % 4 ^ k)).2 + 2 ^ k) / 2 ^ k = 1 := by
        rw [Nat.add_div_right _ hsp, Nat.div_eq_of_lt (by omega)]
      have e2 : (2 ^ k - 1 - (txy k (t % 4 ^ k)).1) / 2 ^ k = 0 :=
        Nat.div_eq_of_lt (by omega)
      have e3 : (2 ^ k - 1 - (txy k (t % 4 ^ k)).2 + 2 ^ k) % 2 ^ k
          = 2 ^ k - 1 - (txy k (t % 4 ^ k)).2 := by
        rw [Nat.add_mod_right, Nat.mod_eq_of_lt (by omega)]
      have e4 : (2 ^ k - 1 - (txy k (t % 4 ^ k)).1) % 2 ^ k
          = 2 ^ k - 1 - (txy k (t % 4 ^ k)).1 :=
        Nat.mod_eq_of_lt (by omega)
      have e5 : 2 ^ k - 1 - (2 ^ k - 1 - (txy k (t % 4 ^ k)).1) = (txy k (t % 4 ^ k)).1 := by
        omega
      have e6 : 2 ^ k - 1 - (2 ^ k - 1 - (txy k (t % 4 ^ k)).2) = (txy k (t % 4 ^ k)).2 := by
        omega
      rw [fxy_succ, e1, e2, show (3 * 1 ^^^ (0:ℕ)) = 3 from rfl, if_pos rfl, if_pos rfl,
        e4, e3, e5, e6, ihr, h44]
      omega

end HilbertIndex

namespace HilbertIndex

theorem toXY_fromXYDepth (d x y : ℕ) (hx : x < 2 ^ d) (hy : y < 2 ^ d) :
    (fromXYDepth (x, y) d).toXY = (x, y) := by
  have h1 : fromXYDepth (x, y) d = ⟨fxy d x y, d⟩ := by
    rw [show fromXYDepth (x, y) d = ⟨(fromXYDepth (x, y) d).index, d⟩ from rfl,
      fromXYDepth_index_eq_fxy d x y hx hy]
  rw [h1, toXY_eq_txy, txy_fxy d x y hx hy]

theorem fromXYDepth_toXY (idx : HilbertIndex) (hv : idx.index < 4 ^ idx.depth) :
    fromXYDepth idx.toXY idx.depth = idx := by
  obtain ⟨t, d⟩ := idx
  change t < 4 ^ d at hv
  obtain ⟨hl1, hl2⟩ := txy_lt d t
  show fromXYDepth (toXY ⟨t, d⟩) d = ⟨t, d⟩
  rw [toXY_eq_txy]
  have h1 : fromXYDepth (txy d t) d = ⟨fxy d (txy d t).1 (txy d t).2, d⟩ := by
    rw [show (txy d t : ℕ × ℕ) = ((txy d t).1, (txy d t).2) from rfl,
      show fromXYDepth ((txy d t).1, (txy d t).2) d
        = ⟨(fromXYDepth ((txy d t).1, (txy d t).2) d).index, d⟩ from rfl,
      fromXYDepth_index_eq_fxy d _ _ hl1 hl2]
  rw [h1, fxy_txy d t hv]

theorem fromXYDepth_index_lt (d x y : ℕ) (hx : x < 2 ^ d) (hy : y < 2 ^ d) :
    (fromXYDepth (x, y) d).index < 4 ^ d := by
  rw [fromXYDepth_index_eq_fxy d x y hx hy]
  exact fxy_lt d x y hx hy

theorem fromXYDepth_inj {d x1 y1 x2 y2 : ℕ} (h1x : x1 < 2 ^ d) (h1y : y1 < 2 ^ d)
    (h2x : x2 < 2 ^ d) (h2y : y2 < 2 ^ d)
    (h : fromXYDepth (x1, y1) d = fromXYDepth (x2, y2) d) : x1 = x2 ∧ y1 = y2 := by
  have e1 := toXY_fromXYDepth d x1 y1 h1x h1y
  have e2 := toXY_fromXYDepth d x2 y2 h2x h2y
  rw [h, e2] at e1
  exact ⟨(Prod.mk.injEq x2 y2 x1 y1 ▸ e1).1.symm, (Prod.mk.injEq x2 y2 x1 y1 ▸ e1).2.symm⟩

end HilbertIndex

/-- C2: Hilbert round-trip.  For every depth `d` in `[0, 15]` and every
`(x, y)` with `x, y < 2 ^ d`, `to_xy (from_xy_depth ((x, y), d)) = (x, y)`;
and for every valid `HilbertIndex` (`index < 4 ^ depth`, `depth < 16`),
`from_xy_depth (to_xy idx, idx.depth) = idx`. -/
theorem hilbert_round_trip (d x y : ℕ) (idx : HilbertIndex) (hd : d ≤ 15)
    (hx : x < 2 ^ d) (hy : y < 2 ^ d) (hvalid : idx.index < 4 ^ idx.depth)
    (hdep : idx.depth < 16) :
    (HilbertIndex.fromXYDepth (x, y) d).toXY = (x, y) ∧
      HilbertIndex.fromXYDepth idx.toXY idx.depth = idx :=
  ⟨HilbertIndex.toXY_fromXYDepth d x y hx hy, HilbertIndex.fromXYDepth_toXY idx hvalid⟩

/-- Witness for C2 at depth 2 with `(x, y) = (3, 1)` and index `⟨9, 2⟩`. -/
theorem hilbert_round_trip_witness :
    ((2:ℕ) ≤ 15 ∧ (3:ℕ) < 2 ^ 2 ∧ (1:ℕ) < 2 ^ 2 ∧
        (HilbertIndex.mk 9 2).index < 4 ^ (HilbertIndex.mk 9 2).depth ∧
        (HilbertIndex.mk 9 2).depth < 16) ∧
      ((HilbertIndex.fromXYDepth (3, 1) 2).toXY = (3, 1) ∧
        HilbertIndex.fromXYDepth (HilbertIndex.mk 9 2).toXY
          (HilbertIndex.mk 9 2).depth = HilbertIndex.mk 9 2) :=
  ⟨⟨by decide, by decide, by decide, by decide, by decide⟩,
    hilbert_round_trip 2 3 1 ⟨9, 2⟩ (by decide) (by decide) (by decide) (by decide)
      (by decide)⟩

namespace HilbertIndex

/-- Hilbert child contiguity at the level of the normalised recursion: the
index of the quadrant cell `(x*2+qx, y*2+qy)` at depth `k+1` is one of the
four contiguous children `4*i + 0..3` of the cell `(x, y)` at depth `k`. -/
theorem fxy_child : ∀ k x y qx qy, x < 2 ^ k → y < 2 ^ k → qx ≤ 1 → qy ≤ 1 →
    ∃ j, j < 4 ∧ fxy (k + 1) (x * 2 + qx) (y * 2 + qy) = 4 * fxy k x y + j := by
  intro k
  induction k with
  | zero =>
    intro x y qx qy hx hy hqx hqy
    rw [pow_zero] at hx hy
    have hx0 : x = 0 := by omega
    have hy0 : y = 0 := by omega
    subst hx0
    subst hy0
    refine ⟨3 * qx ^^^ qy, ?_, ?_⟩
    · interval_cases qx <;> interval_cases qy <;> decide
    · rw [fxy_succ]
      simp [fxy]
  | succ k ih =>
    intro x y qx qy hx hy hqx hqy
    have hsp : 0 < (2:ℕ) ^ k := Nat.pos_pow_of_pos _ (by omega)
    have hps : (2:ℕ) ^ (k + 1) = 2 ^ k * 2 := pow_succ 2 k
    have hxm : x % 2 ^ k < 2 ^ k := Nat.mod_lt _ hsp
    have hym : y % 2 ^ k < 2 ^ k := Nat.mod_lt _ hsp
    have hxdm := Nat.div_add_mod x (2 ^ k)
    have hydm := Nat.div_add_mod y (2 ^ k)
    have hdivx : (x * 2 + qx) / 2 ^ (k + 1) = x / 2 ^ k := by
      rw [hps, mul_comm ((2:ℕ) ^ k) 2, ← Nat.div_div_eq_div_mul]
      congr 1
      omega
    have hdivy : (y * 2 + qy) / 2 ^ (k + 1) = y / 2 ^ k := by
      rw [hps, mul_comm ((2:ℕ) ^ k) 2, ← Nat.div_div_eq_div_mul]
      congr 1
      omega
    have hkeyx : x * 2 + qx = 2 ^ (k + 1) * (x / 2 ^ k) + (x % 2 ^ k * 2 + qx) := by
      rw [hps]
      have h2 : 2 ^ k * 2 * (x / 2 ^ k) = 2 ^ k * (x / 2 ^ k) * 2 := by ring
      rw [h2]
      omega
    have hkeyy : y * 2 + qy = 2 ^ (k + 1) * (y / 2 ^ k) + (y % 2 ^ k * 2 + qy) := by
      rw [hps]
      have h2 : 2 ^ k * 2 * (y / 2 ^ k) = 2 ^ k * (y / 2 ^ k) * 2 := by ring
      rw [h2]
      omega
    have hmodx : (x * 2 + qx) % 2 ^ (k + 1) = x % 2 ^ k * 2 + qx := by
      rw [hkeyx, Nat.mul_add_mod]
      exact Nat.mod_eq_of_lt (by omega)
    have hmody : (y * 2 + qy) % 2 ^ (k + 1) = y % 2 ^ k * 2 + qy := by
      rw [hkeyy, Nat.mul_add_mod]
      exact Nat.mod_eq_of_lt (by omega)
    rw [fxy_succ (k + 1) (x * 2 + qx) (y * 2 + qy), fxy_succ k x y, hdivx, hdivy,
      hmodx, hmody]
    have hlead : (2:ℕ) ^ (k + 1) * 2 ^ (k + 1) = 4 * (2 ^ k * 2 ^ k) := by ring
    by_cases hcy : y / 2 ^ k = 0
    · by_cases hcx : x / 2 ^ k = 1
      · -- reflect branch
        rw [hcy, hcx]
        norm_num
        have hrefy : 2 ^ (k + 1) - 1 - (y % 2 ^ k * 2 + qy)
            = (2 ^ k - 1 - y % 2 ^ k) * 2 + (1 - qy) := by omega
        have hrefx : 2 ^ (k + 1) - 1 - (x % 2 ^ k * 2 + qx)
            = (2 ^ k - 1 - x % 2 ^ k) * 2 + (1 - qx) := by omega
        rw [hrefy, hrefx]
        obtain ⟨j, hj, hje⟩ := ih (2 ^ k - 1 - y % 2 ^ k) (2 ^ k - 1 - x % 2 ^ k)
          (1 - qy) (1 - qx) (by omega) (by omega) (by omega) (by omega)
        refine ⟨j, hj, ?_⟩
        rw [hje, hlead]
        ring
      · -- swap branch
        rw [hcy]
        norm_num [hcx]
        obtain ⟨j, hj, hje⟩ := ih (y % 2 ^ k) (x % 2 ^ k) qy qx hym hxm hqy hqx
        refine ⟨j, hj, ?_⟩
        rw [hje, hlead]
        ring
    · -- identity branch
      norm_num [hcy]
      obtain ⟨j, hj, hje⟩ := ih (x % 2 ^ k) (y % 2 ^ k) qx qy hxm hym hqx hqy
      refine ⟨j, hj, ?_⟩
      rw [hje, hlead]
      ring

/-- Hilbert child contiguity for `from_xy_depth`: descending into a quadrant
yields one of the four children `4*index + 0..3` at `depth + 1`. -/
theorem fromXYDepth_child (d x y qx qy : ℕ) (hx : x < 2 ^ d) (hy : y < 2 ^ d)
    (hqx : qx ≤ 1) (hqy : qy ≤ 1) :
    ∃ j, j < 4 ∧ (fromXYDepth (x * 2 + qx, y * 2 + qy) (d + 1)).index
      = 4 * (fromXYDepth (x, y) d).index + j := by
  have hps : (2:ℕ) ^ (d + 1) = 2 ^ d * 2 := pow_succ 2 d
  obtain ⟨j, hj, he⟩ := fxy_child d x y qx qy hx hy hqx hqy
  refine ⟨j, hj, ?_⟩
  rw [fromXYDepth_index_eq_fxy (d + 1) _ _ (by omega) (by omega),
    fromXYDepth_index_eq_fxy d x y hx hy, he]

end HilbertIndex

/-! ## The sparse quadtree, from `src/quadtree.rs`. -/

/-- The `Spatial` trait from `src/quadtree.rs`. -/
class Spatial (T : Type) where
  xy : T → Vec2d

/-- `QuadtreeNode` from `src/quadtree.rs`: an internal node holding the index
of its region data, or a leaf holding the index of its item.  An `Empty` node
is the absence of a map entry. -/
inductive QuadtreeNode where
  | Internal (i : ℕ)
  | Leaf (i : ℕ)
deriving DecidableEq, Repr

/-- Lookup in the node map, modelling `HashMap::get`. -/
def nodesGet : List (HilbertIndex × QuadtreeNode) → HilbertIndex → Option QuadtreeNode
  | [], _ => none
  | p :: rest, k => if p.1 = k then some p.2 else nodesGet rest k

/-- Insertion into the node map, modelling `HashMap::insert` (replaces any
existing entry for the key). -/
def nodesInsert (l : List (HilbertIndex × QuadtreeNode)) (k : HilbertIndex)
    (v : QuadtreeNode) : List (HilbertIndex × QuadtreeNode) :=
  (k, v) :: l.filter (fun p => decide (p.1 ≠ k))

/-- `Quadtree<T, Internal>` from `src/quadtree.rs` (the debug-drawing
`wireframe_quad` field is rendering-only and omitted). -/
structure Quadtree (T : Type) (Internal : Type) where
  min : Vec2d
  max : Vec2d
  items : List T
  internal : List (Option Internal)
  nodes : List (HilbertIndex × QuadtreeNode)
deriving DecidableEq

namespace Quadtree

variable {T : Type} {Internal : Type}

/-- `Quadtree::new` from `src/quadtree.rs`.  The source returns
`Result<Self, Box<dyn Error>>` and unconditionally constructs `Ok(..)`;
it performs no validation of the bounding box. -/
def new (min max : Vec2d) : Except String (Quadtree T Internal) :=
  .ok ⟨min, max, [], [], []⟩

/-- `Quadtree::get_item`. -/
def get_item (t : Quadtree T Internal) (index : ℕ) : Option T :=
  t.items.get? index

/-- `Quadtree::get_internal` (`self.internal.get(index).map(Option::as_ref).flatten()`). -/
def get_internal (t : Quadtree T Internal) (index : ℕ) : Option Internal :=
  (t.internal.get? index).bind id

/-- `Quadtree::set_internal`; panics (modelled as `none`) when the slot does
not exist. -/
def set_internal (t : Quadtree T Internal) (index : ℕ) (value : Option Internal) :
    Option (Quadtree T Internal) :=
  if t.internal.length ≤ index then none
  else some { t with internal := t.internal.set index value }

/-- `Quadtree::get`. -/
def get (t : Quadtree T Internal) (index : HilbertIndex) : Option QuadtreeNode :=
  nodesGet t.nodes index

/-- `Quadtree::safe_insert`. -/
def safe_insert (t : Quadtree T Internal) (index : HilbertIndex) (node : QuadtreeNode) :
    Quadtree T Internal :=
  { t with nodes := nodesInsert t.nodes index node }

/-- `Quadtree::quadrant`: the quadrant (0 or 1 per axis) of a point relative
to a cell center. -/
def quadrant (center point : Vec2d) : ℕ × ℕ :=
  (if point.x < center.x then 0 else 1, if point.y < center.y then 0 else 1)

/-- The `loop` of `Quadtree::find_insert_pos`, descending from the root while
the current node is internal.  The loop terminates only by finding an empty
or leaf position, so it is given fuel; `none` models non-termination (which
cannot occur on a finite node map, as the depth strictly increases). -/
def findInsertPosLoop (t : Quadtree T Internal) (pos : Vec2d) :
    ℕ → ℕ × ℕ → HilbertIndex → Vec2d → Vec2d → Option HilbertIndex
  | 0, _, _, _, _ => none
  | fuel + 1, curXY, curIndex, curMin, curMax =>
    match t.get curIndex with
    | none => some curIndex
    | some (.Leaf _) => some curIndex
    | some (.Internal _) =>
      let curCenter := curMax * (1/2 : ℚ) + curMin * (1/2 : ℚ)
      let q := quadrant curCenter pos
      let curXY2 := (curXY.1 * 2 + q.1, curXY.2 * 2 + q.2)
      let curIndex2 := HilbertIndex.fromXYDepth curXY2 (curIndex.depth + 1)
      let curMin2 : Vec2d := ⟨if q.1 = 0 then curMin.x else curCenter.x,
                              if q.2 = 0 then curMin.y else curCenter.y⟩
      let curMax2 : Vec2d := ⟨if q.1 = 0 then curCenter.x else curMax.x,
                              if q.2 = 0 then curCenter.y else curMax.y⟩
      findInsertPosLoop t pos fuel curXY2 curIndex2 curMin2 curMax2

/-- `Quadtree::find_insert_pos`. -/
def find_insert_pos (t : Quadtree T Internal) (fuel : ℕ) (pos : Vec2d) :
    Option HilbertIndex :=
  findInsertPosLoop t pos fuel (0, 0) ⟨0, 0⟩ t.min t.max

/-- The `loop` of `Quadtree::split_and_insert`: descend until the existing
item `a` and the new item `b` fall into different quadrants, inserting
intermediate internal nodes (with region index `Default::default()`, i.e.
`0`) along the way.  The loop does not terminate when the two positions never
separate, hence the fuel. -/
def splitLoop (aNode bNode : QuadtreeNode) (aXY bXY : Vec2d) :
    ℕ → Quadtree T Internal → HilbertIndex → ℕ → ℕ → Vec2d → Vec2d →
      Option (Quadtree T Internal)
  | 0, _, _, _, _, _, _ => none
  | fuel + 1, t, insertPos, x, y, nodeMin, nodeMax =>
    let insertDepth := insertPos.depth + 1
    let nodeCenter := nodeMax * (1/2 : ℚ) + nodeMin * (1/2 : ℚ)
    let qa := quadrant nodeCenter aXY
    let qb := quadrant nodeCenter bXY
    if qa.1 ≠ qb.1 ∨ qa.2 ≠ qb.2 then
      let indexA := HilbertIndex.fromXYDepth (x * 2 + qa.1, y * 2 + qa.2) insertDepth
      let indexB := HilbertIndex.fromXYDepth (x * 2 + qb.1, y * 2 + qb.2) insertDepth
      some ((t.safe_insert indexA aNode).safe_insert indexB bNode)
    else
      let x2 := x * 2 + qa.1
      let y2 := y * 2 + qa.2
      let insertPos2 := HilbertIndex.fromXYDepth (x2, y2) insertDepth
      let nodeMin2 : Vec2d := ⟨if qa.1 = 0 then nodeMin.x else nodeCenter.x,
                               if qa.2 = 0 then nodeMin.y else nodeCenter.y⟩
      let nodeMax2 : Vec2d := ⟨if qa.1 = 0 then nodeCenter.x else nodeMax.x,
                               if qa.2 = 0 then nodeCenter.y else nodeMax.y⟩
      splitLoop aNode bNode aXY bXY fuel (t.safe_insert insertPos2 (.Internal 0))
        insertPos2 x2 y2 nodeMin2 nodeMax2

/-- `Quadtree::split_and_insert`.  Pushes a fresh internal slot, replaces the
leaf at `insertPos` by `Internal(internal_index)` keeping the old node as
`a`, and if the two positions are identical returns immediately (dropping
both `a` and the new leaf from the tree); otherwise runs the descend loop.
`none` models a panic or a non-terminating loop. -/
def split_and_insert [Spatial T] (t : Quadtree T Internal) (fuel : ℕ)
    (insertPos : HilbertIndex) (item : ℕ) : Option (Quadtree T Internal) :=
  let internal_index := t.internal.length
  let t1 : Quadtree T Internal := { t with internal := t.internal ++ [none] }
  match t1.get insertPos with
  | none => none
  | some a =>
    let t2 := t1.safe_insert insertPos (.Internal internal_index)
    let b : QuadtreeNode := .Leaf item
    match a with
    | .Internal _ => none
    | .Leaf aIndex =>
      match t2.get_item aIndex, t2.get_item item with
      | some aItem, some bItem =>
        let aXY := Spatial.xy aItem
        let bXY := Spatial.xy bItem
        if aXY = bXY then some t2
        else
          let originalNodeSize := (t2.max - t2.min) / ((2:ℚ) ^ insertPos.depth)
          let xy := insertPos.toXY
          let nodeMin : Vec2d := t2.min +
            ⟨originalNodeSize.x * (xy.1 : ℚ), originalNodeSize.y * (xy.2 : ℚ)⟩
          let nodeMax := nodeMin + originalNodeSize
          splitLoop a b aXY bXY fuel t2 insertPos xy.1 xy.2 nodeMin nodeMax
      | _, _ => none

/-- `Quadtree::add`. -/
def add [Spatial T] (t : Quadtree T Internal) (fuel : ℕ) (item : T) :
    Option (Quadtree T Internal) :=
  let pos := Spatial.xy item
  if pos.x < t.min.x ∨ pos.x > t.max.x ∨ pos.y < t.min.y ∨ pos.y > t.max.y then
    some t
  else
    match t.find_insert_pos fuel pos with
    | none => none
    | some insertPos =>
      let index := t.items.length
      let t1 : Quadtree T Internal := { t with items := t.items ++ [item] }
      match t1.get insertPos with
      | none => some (t1.safe_insert insertPos (.Leaf index))
      | some _ => t1.split_and_insert fuel insertPos index

end Quadtree

/-! ## Galaxy data types and constants, from `src/galaxy.rs`.
Wrapped in a `galaxy` namespace mirroring the Rust module (and because
`Star` is taken by Mathlib). -/

namespace galaxy

/-- `Star` from `src/galaxy.rs`. -/
structure Star where
  position : Vec2d
  velocity : Vec2d
  mass : ℚ
deriving DecidableEq, Repr

/-- `impl Spatial for Star` from `src/galaxy.rs`. -/
instance : Spatial Star := ⟨fun s => s.position⟩

/-- `Region` from `src/galaxy.rs`: aggregated mass data of an internal node. -/
structure Region where
  center_of_mass : Vec2d
  mass : ℚ
deriving DecidableEq, Repr

/-- `GRAVITATIONAL_CONSTANT = 4.3e-3` from `src/galaxy.rs`. -/
def GRAVITATIONAL_CONSTANT : ℚ := 43 / 10000

/-- `GALAXY_DIAMETER = 32408.0` from `src/galaxy.rs`. -/
def GALAXY_DIAMETER : ℚ := 32408

/-- `GALAXY_RADIUS = GALAXY_DIAMETER / 2.0` from `src/galaxy.rs`. -/
def GALAXY_RADIUS : ℚ := GALAXY_DIAMETER / 2

/-- `MIN_GRAVITY_DISTANCE_SQUARED = 0.0` from `src/galaxy.rs`. -/
def MIN_GRAVITY_DISTANCE_SQUARED : ℚ := 0

/-- `SUPERMASSIVE_BLACK_HOLE_MASS = 4e6` from `src/galaxy.rs`. -/
def SUPERMASSIVE_BLACK_HOLE_MASS : ℚ := 4000000

/-- A star with zero velocity and unit mass at a given position, used for
concrete test inputs. -/
def starAt (p : Vec2d) : Star := ⟨p, ⟨0, 0⟩, 1⟩

/-- An empty quadtree over the box `[(0,0), (4,4)]`, used for concrete test
inputs. -/
def testTree : Quadtree Star Region := ⟨⟨0, 0⟩, ⟨4, 4⟩, [], [], []⟩

end galaxy

/-- C5 (counterexample): for the degenerate bounding box with
`min = (1,1)` NOT strictly less than `max = (0,0)`, `Quadtree::new` does not
return a failure: it returns `Ok` with the box stored as given, refuting the
claim that construction fails for a degenerate bounding box. -/
theorem quadtree_new_degenerate_box_ok :
    @Quadtree.new galaxy.Star galaxy.Region ⟨1, 1⟩ ⟨0, 0⟩
      = Except.ok ⟨⟨1, 1⟩, ⟨0, 0⟩, [], [], []⟩ := rfl

/-- C5 (amended): `Quadtree::new(min, max)` always succeeds, returning `Ok`
with the given bounds and empty stores; it performs no validation of the
bounding box, so a degenerate box is the caller's responsibility. -/
theorem quadtree_new_always_ok (T Internal : Type) (mn mx : Vec2d) :
    @Quadtree.new T Internal mn mx = Except.ok ⟨mn, mx, [], [], []⟩ := rfl

/-- C7: an item whose position lies outside the quadtree's `[min, max]`
rectangle on either axis is silently discarded by `add`: the quadtree is
returned completely unchanged (same node map, same items list). -/
theorem quadtree_add_out_of_bounds {T Internal : Type} [Spatial T]
    (t : Quadtree T Internal) (fuel : ℕ) (item : T)
    (h : (Spatial.xy item).x < t.min.x ∨ (Spatial.xy item).x > t.max.x ∨
      (Spatial.xy item).y < t.min.y ∨ (Spatial.xy item).y > t.max.y) :
    t.add fuel item = some t := by
  simp only [Quadtree.add]
  rw [if_pos h]

/-- Witness for C7: adding a star at `(5,5)` to the tree over
`[(0,0), (4,4)]` returns the tree unchanged. -/
theorem quadtree_add_out_of_bounds_witness :
    ((Spatial.xy (galaxy.starAt ⟨5, 5⟩)).x < galaxy.testTree.min.x ∨
        (Spatial.xy (galaxy.starAt ⟨5, 5⟩)).x > galaxy.testTree.max.x ∨
        (Spatial.xy (galaxy.starAt ⟨5, 5⟩)).y < galaxy.testTree.min.y ∨
        (Spatial.xy (galaxy.starAt ⟨5, 5⟩)).y > galaxy.testTree.max.y) ∧
      galaxy.testTree.add 3 (galaxy.starAt ⟨5, 5⟩) = some galaxy.testTree :=
  ⟨by decide, quadtree_add_out_of_bounds galaxy.testTree 3 (galaxy.starAt ⟨5, 5⟩)
    (by decide)⟩

/-- C3 (evaluation at the failing input): adding two items with bit-for-bit
identical positions `(1,1)`.  The split terminates, but the code replaces
the occupied leaf with `Internal(0)` and then returns, so NEITHER colliding
item remains stored in any Leaf node: the final node map is exactly the
single childless internal root, while both items linger in the flat items
list.  This contradicts the claim (and the code's own log message) that one
item is dropped and the other remains in a Leaf. -/
theorem add_identical_position_drops_both :
    (galaxy.testTree.add 4 (galaxy.starAt ⟨1, 1⟩)).bind
        (fun t => t.add 4 (galaxy.starAt ⟨1, 1⟩))
      = some ⟨⟨0, 0⟩, ⟨4, 4⟩, [galaxy.starAt ⟨1, 1⟩, galaxy.starAt ⟨1, 1⟩], [none],
          [(⟨0, 0⟩, .Internal 0)]⟩ := by
  decide

/-- C4 (counterexample): after the two-call add sequence with identical
positions `(1,1)` on a fresh tree, the root maps to an Internal node but
none of its four children `4*0 + 0..3` at depth 1 is present, refuting the
claim that every Internal node has at least one present child after any
finite sequence of `add` calls. -/
theorem internal_node_without_children :
    ∃ t2 : Quadtree galaxy.Star galaxy.Region,
      (galaxy.testTree.add 4 (galaxy.starAt ⟨1, 1⟩)).bind
          (fun t => t.add 4 (galaxy.starAt ⟨1, 1⟩)) = some t2 ∧
        t2.get ⟨0, 0⟩ = some (.Internal 0) ∧
        (∀ j, j < 4 → t2.get ⟨0 * 4 + j, 0 + 1⟩ = none) :=
  ⟨⟨⟨0, 0⟩, ⟨4, 4⟩, [galaxy.starAt ⟨1, 1⟩, galaxy.starAt ⟨1, 1⟩], [none],
      [(⟨0, 0⟩, .Internal 0)]⟩, by decide, by decide, by decide⟩

set_option maxRecDepth 1000000 in
/-- C9 (counterexample): the Internal-node-to-region-index mapping is not
injective.  Adding stars at `(1/2, 1/2)` and `(3/2, 3/2)` makes the split
descend one level: the replaced root leaf becomes `Internal(0)` (the freshly
allocated slot) and the intermediate node inserted on the way down is created
with `Internal(Default::default())`, i.e. index `0` as well, so the two
distinct Internal nodes `(0, depth 0)` and `(0, depth 1)` share region
index 0. -/
theorem region_index_mapping_not_injective :
    ∃ t2 : Quadtree galaxy.Star galaxy.Region,
      (galaxy.testTree.add 4 (galaxy.starAt ⟨1/2, 1/2⟩)).bind
          (fun t => t.add 4 (galaxy.starAt ⟨3/2, 3/2⟩)) = some t2 ∧
        ¬(∀ k1 k2 : HilbertIndex, ∀ r1 r2 : ℕ,
          t2.get k1 = some (.Internal r1) → t2.get k2 = some (.Internal r2) →
            r1 = r2 → k1 = k2) := by
  refine ⟨⟨⟨0, 0⟩, ⟨4, 4⟩,
    [galaxy.starAt ⟨1/2, 1/2⟩, galaxy.starAt ⟨3/2, 3/2⟩], [none],
    [(⟨2, 2⟩, .Leaf 1), (⟨0, 2⟩, .Leaf 0), (⟨0, 1⟩, .Internal 0),
      (⟨0, 0⟩, .Internal 0)]⟩, by with_unfolding_all rfl, ?_⟩
  intro hinj
  have := hinj ⟨0, 0⟩ ⟨0, 1⟩ 0 0 (by decide) (by decide) rfl
  exact absurd this (by decide)

set_option maxRecDepth 1000000 in
/-- C9 (amended): the mapping from Internal nodes to region-data indices is
NOT injective in general: `split_and_insert` allocates a fresh slot only for
the leaf it replaces, and every intermediate Internal node it inserts while
descending carries index `Default::default() = 0`.  Concretely, after adding
stars at `(1/2, 1/2)` and `(3/2, 3/2)` to a fresh tree over `[(0,0), (4,4)]`,
the two distinct Internal nodes at Hilbert indices `(0, depth 0)` and
`(0, depth 1)` both carry region index 0. -/
theorem region_index_aliasing_concrete :
    ∃ t2 : Quadtree galaxy.Star galaxy.Region,
      (galaxy.testTree.add 4 (galaxy.starAt ⟨1/2, 1/2⟩)).bind
          (fun t => t.add 4 (galaxy.starAt ⟨3/2, 3/2⟩)) = some t2 ∧
        t2.get ⟨0, 0⟩ = some (.Internal 0) ∧
        t2.get ⟨0, 1⟩ = some (.Internal 0) ∧
        (⟨0, 0⟩ : HilbertIndex) ≠ ⟨0, 1⟩ :=
  ⟨⟨⟨0, 0⟩, ⟨4, 4⟩,
    [galaxy.starAt ⟨1/2, 1/2⟩, galaxy.starAt ⟨3/2, 3/2⟩], [none],
    [(⟨2, 2⟩, .Leaf 1), (⟨0, 2⟩, .Leaf 0), (⟨0, 1⟩, .Internal 0),
      (⟨0, 0⟩, .Internal 0)]⟩, by with_unfolding_all rfl, by decide, by decide, by decide⟩

/-! ## Structural invariants of the quadtree preserved by `add` (for C4). -/

/-- The parent cell of a Hilbert index (inverse of the contiguous
`children` expansion): `(index / 4, depth - 1)`. -/
def parentIdx (k : HilbertIndex) : HilbertIndex := ⟨k.index / 4, k.depth - 1⟩

/-- Structural well-formedness of a quadtree node map, as maintained by
`add` starting from an empty tree:
every present key is a valid Hilbert index, the parent of every non-root
present node is a present Internal node, every Internal node has at least
one present child, and every Leaf refers into the items list. -/
structure QInv {T Internal : Type} (t : Quadtree T Internal) : Prop where
  keyValid : ∀ k n, t.get k = some n → k.index < 4 ^ k.depth
  parentInternal : ∀ k n, t.get k = some n → 0 < k.depth →
    ∃ r, t.get (parentIdx k) = some (.Internal r)
  internalHasChild : ∀ k r, t.get k = some (.Internal r) →
    ∃ j, j < 4 ∧ t.get ⟨4 * k.index + j, k.depth + 1⟩ ≠ none
  leafIdxValid : ∀ k i, t.get k = some (.Leaf i) → i < t.items.length

theorem nodesGet_insert_self (l : List (HilbertIndex × QuadtreeNode))
    (k : HilbertIndex) (v : QuadtreeNode) : nodesGet (nodesInsert l k v) k = some v := by
  simp [nodesInsert, nodesGet]

theorem nodesGet_filter_ne (l : List (HilbertIndex × QuadtreeNode))
    (k k' : HilbertIndex) (h : k' ≠ k) :
    nodesGet (l.filter (fun p => decide (p.1 ≠ k))) k' = nodesGet l k' := by
  induction l with
  | nil => rfl
  | cons p rest ih =>
    by_cases hp : p.1 = k
    · have hd : (decide (p.1 ≠ k)) = false := by simp [hp]
      have hne : p.1 ≠ k' := by
        rw [hp]
        exact fun he => h he.symm
      rw [List.filter_cons, hd]
      simp only [Bool.false_eq_true, if_false]
      rw [ih]
      show _ = nodesGet (p :: rest) k'
      simp [nodesGet, hne]
    · have hd : (decide (p.1 ≠ k)) = true := by simp [hp]
      rw [List.filter_cons, hd]
      simp only [if_true]
      show nodesGet (p :: _) k' = nodesGet (p :: rest) k'
      by_cases hk : p.1 = k'
      · simp [nodesGet, hk]
      · simp only [nodesGet, if_neg hk]
        exact ih

theorem Quadtree.get_safe_insert_self {T Internal : Type} (t : Quadtree T Internal)
    (k : HilbertIndex) (v : QuadtreeNode) : (t.safe_insert k v).get k = some v :=
  nodesGet_insert_self t.nodes k v

theorem Quadtree.get_safe_insert_ne {T Internal : Type} (t : Quadtree T Internal)
    (k k' : HilbertIndex) (v : QuadtreeNode) (h : k' ≠ k) :
    (t.safe_insert k v).get k' = t.get k' := by
  show nodesGet (nodesInsert t.nodes k v) k' = nodesGet t.nodes k'
  simp only [nodesInsert, nodesGet]
  rw [if_neg (fun he => h he.symm)]
  exact nodesGet_filter_ne t.nodes k k' h

theorem ancestors_internal {T Internal : Type} (t : Quadtree T Internal)
    (hpc : ∀ k n, t.get k = some n → 0 < k.depth →
      ∃ r, t.get (parentIdx k) = some (.Internal r)) :
    ∀ (j : ℕ) (k : HilbertIndex) (n : QuadtreeNode),
    t.get k = some n → 0 < j → j ≤ k.depth →
      ∃ r, t.get ⟨k.index / 4 ^ j, k.depth - j⟩ = some (.Internal r) := by
  intro j
  induction j with
  | zero =>
    intro k n _ h0 _
    omega
  | succ j ih =>
    intro k n hk _ hle
    rcases Nat.eq_zero_or_pos j with hj0 | hjpos
    · subst hj0
      obtain ⟨r, hr⟩ := hpc k n hk (by omega)
      exact ⟨r, by rw [show (4:ℕ) ^ 1 = 4 from rfl]; exact hr⟩
    · obtain ⟨r, hr⟩ := ih k n hk hjpos (by omega)
      obtain ⟨r2, hr2⟩ := hpc _ _ hr (show 0 < k.depth - j by omega)
      refine ⟨r2, ?_⟩
      have e1 : k.index / 4 ^ j / 4 = k.index / 4 ^ (j + 1) := by
        rw [Nat.div_div_eq_div_mul, pow_succ]
      have e2 : k.depth - j - 1 = k.depth - (j + 1) := by omega
      rw [show parentIdx ⟨k.index / 4 ^ j, k.depth - j⟩
          = ⟨k.index / 4 ^ j / 4, k.depth - j - 1⟩ from rfl, e1, e2] at hr2
      exact hr2

/-- Under `QInv`, no node is present strictly below a Leaf node. -/
theorem desc_of_leaf_absent {T Internal : Type} (t : Quadtree T Internal)
    (hInv : QInv t) (L : HilbertIndex) (i : ℕ) (hL : t.get L = some (.Leaf i)) :
    ∀ k, L.depth < k.depth → k.index / 4 ^ (k.depth - L.depth) = L.index →
      t.get k = none := by
  intro k hd hidx
  cases hval : t.get k with
  | none => rfl
  | some n =>
    obtain ⟨r, hr⟩ := ancestors_internal t hInv.parentInternal (k.depth - L.depth)
      k n hval (by omega) (by omega)
    rw [hidx] at hr
    have he : (⟨L.index, k.depth - (k.depth - L.depth)⟩ : HilbertIndex) = L := by
      have h2 : k.depth - (k.depth - L.depth) = L.depth := by omega
      rw [h2]
    rw [he, hL] at hr
    simp at hr

theorem quadrant_le (c p : Vec2d) :
    (Quadtree.quadrant c p).1 ≤ 1 ∧ (Quadtree.quadrant c p).2 ≤ 1 := by
  constructor
  · by_cases h : p.x < c.x <;> simp [Quadtree.quadrant, h]
  · by_cases h : p.y < c.y <;> simp [Quadtree.quadrant, h]

/-- What the descent loop of `find_insert_pos` guarantees about the returned
index: the position is empty or a Leaf, it is a valid Hilbert image of
in-range grid coordinates, and (unless it is the root) its parent is a
present Internal node. -/
theorem findInsertPosLoop_spec {T Internal : Type} (t : Quadtree T Internal)
    (pos : Vec2d) : ∀ (fuel : ℕ) (curXY : ℕ × ℕ) (curIndex : HilbertIndex)
    (curMin curMax : Vec2d) (res : HilbertIndex),
    Quadtree.findInsertPosLoop t pos fuel curXY curIndex curMin curMax = some res →
    curIndex = HilbertIndex.fromXYDepth curXY curIndex.depth →
    curXY.1 < 2 ^ curIndex.depth → curXY.2 < 2 ^ curIndex.depth →
    (curIndex.depth = 0 ∨ ∃ r, t.get (parentIdx curIndex) = some (.Internal r)) →
    ((t.get res = none ∨ ∃ i, t.get res = some (.Leaf i)) ∧
     (∃ xy : ℕ × ℕ, res = HilbertIndex.fromXYDepth xy res.depth ∧
        xy.1 < 2 ^ res.depth ∧ xy.2 < 2 ^ res.depth) ∧
     (res.depth = 0 ∨ ∃ r, t.get (parentIdx res) = some (.Internal r))) := by
  intro fuel
  induction fuel with
  | zero =>
    intro curXY curIndex curMin curMax res h
    exact absurd h (by simp [Quadtree.findInsertPosLoop])
  | succ fuel ih =>
    intro curXY curIndex curMin curMax res h hrep hx hy hpar
    rcases hg : t.get curIndex with _ | n
    · simp only [Quadtree.findInsertPosLoop, hg] at h
      obtain rfl : curIndex = res := Option.some.inj h
      exact ⟨Or.inl hg, ⟨curXY, hrep, hx, hy⟩, hpar⟩
    · cases n with
      | Leaf i =>
        simp only [Quadtree.findInsertPosLoop, hg] at h
        obtain rfl : curIndex = res := Option.some.inj h
        exact ⟨Or.inr ⟨i, hg⟩, ⟨curXY, hrep, hx, hy⟩, hpar⟩
      | Internal r =>
        simp only [Quadtree.findInsertPosLoop, hg] at h
        obtain ⟨cx, cy⟩ := curXY
        set c := curMax * (1/2 : ℚ) + curMin * (1/2 : ℚ) with hc
        obtain ⟨hq1, hq2⟩ := quadrant_le c pos
        refine ih _ _ _ _ res h rfl ?_ ?_ ?_
        · show cx * 2 + (Quadtree.quadrant c pos).1 < 2 ^ (curIndex.depth + 1)
          rw [pow_succ]
          have h2 : cx < 2 ^ curIndex.depth := hx
          generalize 2 ^ curIndex.depth = P at h2 ⊢
          omega
        · show cy * 2 + (Quadtree.quadrant c pos).2 < 2 ^ (curIndex.depth + 1)
          rw [pow_succ]
          have h2 : cy < 2 ^ curIndex.depth := hy
          generalize 2 ^ curIndex.depth = P at h2 ⊢
          omega
        · right
          obtain ⟨j, hj, he⟩ := HilbertIndex.fromXYDepth_child curIndex.depth cx cy
            (Quadtree.quadrant c pos).1 (Quadtree.quadrant c pos).2 hx hy hq1 hq2
          have hidx : (HilbertIndex.fromXYDepth
              (cx * 2 + (Quadtree.quadrant c pos).1, cy * 2 + (Quadtree.quadrant c pos).2)
              (curIndex.depth + 1)).index / 4 = curIndex.index := by
            rw [he, ← hrep]
            omega
          have hpeq : parentIdx (HilbertIndex.fromXYDepth
              (cx * 2 + (Quadtree.quadrant c pos).1, cy * 2 + (Quadtree.quadrant c pos).2)
              (curIndex.depth + 1)) = curIndex := by
            show (⟨_ / 4, curIndex.depth + 1 - 1⟩ : HilbertIndex) = curIndex
            rw [hidx]
            rfl
          rw [hpeq]
          exact ⟨r, hg⟩

theorem hi_ne_of_depth {a b : HilbertIndex} (h : a.depth ≠ b.depth) : a ≠ b :=
  fun he => h (congrArg HilbertIndex.depth he)

theorem child_coord_lt (x q d : ℕ) (hx : x < 2 ^ d) (hq : q ≤ 1) :
    x * 2 + q < 2 ^ (d + 1) := by
  rw [pow_succ]
  generalize 2 ^ d = P at hx ⊢
  omega

/-- Descendant-of-a-descendant: if `c` is the child cell of `p` and `k` lies
strictly below `c`, then `k` lies strictly below `p`. -/
theorem desc_trans (k c p : HilbertIndex) (hcd : c.depth = p.depth + 1)
    (hc : c.index / 4 = p.index) (hkd : c.depth < k.depth)
    (hk : k.index / 4 ^ (k.depth - c.depth) = c.index) :
    p.depth < k.depth ∧ k.index / 4 ^ (k.depth - p.depth) = p.index := by
  refine ⟨by omega, ?_⟩
  have he : k.depth - p.depth = (k.depth - c.depth) + 1 := by omega
  rw [he, pow_succ, ← Nat.div_div_eq_div_mul, hk, hc]

theorem Quadtree.get_safe_insert {T Internal : Type} (t : Quadtree T Internal)
    (k k' : HilbertIndex) (v : QuadtreeNode) :
    (t.safe_insert k v).get k' = if k' = k then some v else t.get k' := by
  by_cases h : k' = k
  · subst h
    rw [if_pos rfl]
    exact t.get_safe_insert_self k' v
  · rw [if_neg h]
    exact t.get_safe_insert_ne k k' v h

/-- Invariant carried down the `split_and_insert` descend loop: the usual
structural conditions away from the current insert position `ip`, plus: `ip`
itself is a present Internal node with no present strict descendants, and
`(x, y)` are its in-range grid coordinates. -/
structure LoopInv {T Internal : Type} (t : Quadtree T Internal)
    (ip : HilbertIndex) (x y : ℕ) : Prop where
  keyValid : ∀ k n, t.get k = some n → k.index < 4 ^ k.depth
  parentInternal : ∀ k n, t.get k = some n → 0 < k.depth →
    ∃ r, t.get (parentIdx k) = some (.Internal r)
  childEx : ∀ k r, t.get k = some (.Internal r) → k ≠ ip →
    ∃ j, j < 4 ∧ t.get ⟨4 * k.index + j, k.depth + 1⟩ ≠ none
  leafIdx : ∀ k i, t.get k = some (.Leaf i) → i < t.items.length
  ipInternal : ∃ r, t.get ip = some (.Internal r)
  descAbsent : ∀ k, ip.depth < k.depth →
    k.index / 4 ^ (k.depth - ip.depth) = ip.index → t.get k = none
  xyOK : ip = HilbertIndex.fromXYDepth (x, y) ip.depth ∧
    x < 2 ^ ip.depth ∧ y < 2 ^ ip.depth

/-- The child cell of the split position in quadrant `(q1, q2)`: its parent is
`ip`, it is absent from the map, and its raw index is contiguous below `ip`. -/
theorem split_child_facts {T Internal : Type} {t : Quadtree T Internal}
    {ip : HilbertIndex} {x y : ℕ} (hInv : LoopInv t ip x y) (q1 q2 : ℕ)
    (hq1 : q1 ≤ 1) (hq2 : q2 ≤ 1) :
    parentIdx (HilbertIndex.fromXYDepth (x * 2 + q1, y * 2 + q2) (ip.depth + 1)) = ip ∧
    t.get (HilbertIndex.fromXYDepth (x * 2 + q1, y * 2 + q2) (ip.depth + 1)) = none ∧
    (HilbertIndex.fromXYDepth (x * 2 + q1, y * 2 + q2) (ip.depth + 1)).index / 4
      = ip.index ∧
    ∃ j, j < 4 ∧ (HilbertIndex.fromXYDepth (x * 2 + q1, y * 2 + q2) (ip.depth + 1)).index
      = 4 * ip.index + j := by
  obtain ⟨hrep, hx, hy⟩ := hInv.xyOK
  obtain ⟨j, hj, he⟩ := HilbertIndex.fromXYDepth_child ip.depth x y q1 q2 hx hy hq1 hq2
  rw [← hrep] at he
  set c := HilbertIndex.fromXYDepth (x * 2 + q1, y * 2 + q2) (ip.depth + 1) with hcdef
  have hcd : c.depth = ip.depth + 1 := rfl
  have hdiv : c.index / 4 = ip.index := by
    rw [he]
    omega
  have hd1 : c.depth - ip.depth = 1 := by
    rw [hcd]
    omega
  refine ⟨?_, ?_, hdiv, j, hj, he⟩
  · show (⟨c.index / 4, ip.depth + 1 - 1⟩ : HilbertIndex) = ip
    rw [hdiv]
    rfl
  · exact hInv.descAbsent c (by rw [hcd]; omega) (by rw [hd1, pow_one, hdiv])

/-- The descend loop of `split_and_insert` turns a `LoopInv` state into a
fully `QInv` tree (leaving the items list untouched). -/
theorem splitLoop_inv {T Internal : Type} (aIdx bIdx : ℕ) (aXY bXY : Vec2d) :
    ∀ (fuel : ℕ) (t : Quadtree T Internal) (ip : HilbertIndex) (x y : ℕ)
      (nmin nmax : Vec2d) (t' : Quadtree T Internal),
    Quadtree.splitLoop (.Leaf aIdx) (.Leaf bIdx) aXY bXY fuel t ip x y nmin nmax
      = some t' →
    LoopInv t ip x y → aIdx < t.items.length → bIdx < t.items.length →
    QInv t' ∧ t'.items = t.items := by
  intro fuel
  induction fuel with
  | zero =>
    intro t ip x y nmin nmax t' h
    exact absurd h (by simp [Quadtree.splitLoop])
  | succ fuel ih =>
    intro t ip x y nmin nmax t' h hInv ha hb
    simp only [Quadtree.splitLoop] at h
    set C := nmax * (1/2 : ℚ) + nmin * (1/2 : ℚ) with hC
    obtain ⟨hqa1, hqa2⟩ := quadrant_le C aXY
    obtain ⟨hqb1, hqb2⟩ := quadrant_le C bXY
    obtain ⟨hrep, hx, hy⟩ := hInv.xyOK
    have hxa : x * 2 + (Quadtree.quadrant C aXY).1 < 2 ^ (ip.depth + 1) :=
      child_coord_lt _ _ _ hx hqa1
    have hya : y * 2 + (Quadtree.quadrant C aXY).2 < 2 ^ (ip.depth + 1) :=
      child_coord_lt _ _ _ hy hqa2
    have hxb : x * 2 + (Quadtree.quadrant C bXY).1 < 2 ^ (ip.depth + 1) :=
      child_coord_lt _ _ _ hx hqb1
    have hyb : y * 2 + (Quadtree.quadrant C bXY).2 < 2 ^ (ip.depth + 1) :=
      child_coord_lt _ _ _ hy hqb2
    by_cases hsep : (Quadtree.quadrant C aXY).1 ≠ (Quadtree.quadrant C bXY).1 ∨
        (Quadtree.quadrant C aXY).2 ≠ (Quadtree.quadrant C bXY).2
    · rw [if_pos hsep] at h
      obtain ⟨hApar, hAabs, hAdiv, jA, hjA, hAe⟩ :=
        split_child_facts hInv _ _ hqa1 hqa2
      obtain ⟨hBpar, hBabs, hBdiv, jB, hjB, hBe⟩ :=
        split_child_facts hInv _ _ hqb1 hqb2
      set idxA := HilbertIndex.fromXYDepth
        (x * 2 + (Quadtree.quadrant C aXY).1, y * 2 + (Quadtree.quadrant C aXY).2)
        (ip.depth + 1) with hAdef
      set idxB := HilbertIndex.fromXYDepth
        (x * 2 + (Quadtree.quadrant C bXY).1, y * 2 + (Quadtree.quadrant C bXY).2)
        (ip.depth + 1) with hBdef
      have hAd : idxA.depth = ip.depth + 1 := rfl
      have hBd : idxB.depth = ip.depth + 1 := rfl
      have hipA : ip ≠ idxA := hi_ne_of_depth (by rw [hAd]; omega)
      have hipB : ip ≠ idxB := hi_ne_of_depth (by rw [hBd]; omega)
      obtain rfl := Option.some.inj h
      have hgetB : ∀ k,
          ((t.safe_insert idxA (.Leaf aIdx)).safe_insert idxB (.Leaf bIdx)).get k
          = if k = idxB then some (.Leaf bIdx)
            else if k = idxA then some (.Leaf aIdx) else t.get k := by
        intro k
        rw [Quadtree.get_safe_insert, Quadtree.get_safe_insert]
      refine ⟨⟨?_, ?_, ?_, ?_⟩, rfl⟩
      · intro k n hk
        rw [hgetB] at hk
        split_ifs at hk with h1 h2
        · subst h1
          rw [hBdef]
          exact HilbertIndex.fromXYDepth_index_lt _ _ _ hxb hyb
        · subst h2
          rw [hAdef]
          exact HilbertIndex.fromXYDepth_index_lt _ _ _ hxa hya
        · exact hInv.keyValid k n hk
      · intro k n hk hd
        rw [hgetB] at hk
        split_ifs at hk with h1 h2
        · subst h1
          rw [hBpar]
          obtain ⟨r0, hr0⟩ := hInv.ipInternal
          refine ⟨r0, ?_⟩
          rw [hgetB, if_neg hipB, if_neg hipA]
          exact hr0
        · subst h2
          rw [hApar]
          obtain ⟨r0, hr0⟩ := hInv.ipInternal
          refine ⟨r0, ?_⟩
          rw [hgetB, if_neg hipB, if_neg hipA]
          exact hr0
        · obtain ⟨r0, hr0⟩ := hInv.parentInternal k n hk hd
          have hne1 : parentIdx k ≠ idxB := fun he => by
            rw [he, hBabs] at hr0
            exact Option.noConfusion hr0
          have hne2 : parentIdx k ≠ idxA := fun he => by
            rw [he, hAabs] at hr0
            exact Option.noConfusion hr0
          refine ⟨r0, ?_⟩
          rw [hgetB, if_neg hne1, if_neg hne2]
          exact hr0
      · intro k r hk
        rw [hgetB] at hk
        split_ifs at hk with h1 h2
        · exact absurd hk (by simp)
        · exact absurd hk (by simp)
        · by_cases hkip : k = ip
          · subst hkip
            refine ⟨jA, hjA, ?_⟩
            have hkey : (⟨4 * k.index + jA, k.depth + 1⟩ : HilbertIndex) = idxA := by
              rw [← hAe, ← hAd]
            rw [hkey, hgetB]
            split_ifs <;> simp
          · obtain ⟨j, hj, hch⟩ := hInv.childEx k r hk hkip
            refine ⟨j, hj, ?_⟩
            rw [hgetB]
            split_ifs with hh1 hh2
            · simp
            · simp
            · exact hch
      · intro k i hk
        rw [hgetB] at hk
        split_ifs at hk with h1 h2
        · obtain rfl : bIdx = i := by simpa using hk
          exact hb
        · obtain rfl : aIdx = i := by simpa using hk
          exact ha
        · exact hInv.leafIdx k i hk
    · rw [if_neg hsep] at h
      obtain ⟨hP, hAbs, hDiv, jA, hjA, hAe⟩ := split_child_facts hInv _ _ hqa1 hqa2
      set ip2 := HilbertIndex.fromXYDepth
        (x * 2 + (Quadtree.quadrant C aXY).1, y * 2 + (Quadtree.quadrant C aXY).2)
        (ip.depth + 1) with hip2
      have hd2 : ip2.depth = ip.depth + 1 := rfl
      have hipne : ip ≠ ip2 := hi_ne_of_depth (by rw [hd2]; omega)
      have hget2 : ∀ k, (t.safe_insert ip2 (.Internal 0)).get k
          = if k = ip2 then some (.Internal 0) else t.get k :=
        fun k => Quadtree.get_safe_insert t ip2 k (.Internal 0)
      refine ih (t.safe_insert ip2 (.Internal 0)) _ _ _ _ _ _ h
        ⟨?_, ?_, ?_, ?_, ?_, ?_, ?_⟩ ha hb
      · intro k n hk
        rw [hget2] at hk
        split_ifs at hk with h1
        · subst h1
          rw [hip2]
          exact HilbertIndex.fromXYDepth_index_lt _ _ _ hxa hya
        · exact hInv.keyValid k n hk
      · intro k n hk hd
        rw [hget2] at hk
        split_ifs at hk with h1
        · subst h1
          rw [hP]
          obtain ⟨r0, hr0⟩ := hInv.ipInternal
          refine ⟨r0, ?_⟩
          rw [hget2, if_neg hipne]
          exact hr0
        · obtain ⟨r0, hr0⟩ := hInv.parentInternal k n hk hd
          have hne : parentIdx k ≠ ip2 := fun he => by
            rw [he, hAbs] at hr0
            exact Option.noConfusion hr0
          refine ⟨r0, ?_⟩
          rw [hget2, if_neg hne]
          exact hr0
      · intro k r hk hkne
        rw [hget2] at hk
        split_ifs at hk with h1
        · exact absurd h1 hkne
        · by_cases hkip : k = ip
          · subst hkip
            refine ⟨jA, hjA, ?_⟩
            have hkey : (⟨4 * k.index + jA, k.depth + 1⟩ : HilbertIndex) = ip2 := by
              rw [← hAe, ← hd2]
            rw [hkey, hget2, if_pos rfl]
            simp
          · obtain ⟨j, hj, hch⟩ := hInv.childEx k r hk hkip
            refine ⟨j, hj, ?_⟩
            rw [hget2]
            split_ifs with hh
            · simp
            · exact hch
      · intro k i hk
        rw [hget2] at hk
        split_ifs at hk with h1
        · exact absurd hk (by simp)
        · exact hInv.leafIdx k i hk
      · exact ⟨0, by rw [hget2, if_pos rfl]⟩
      · intro k hkd hki
        obtain ⟨hpd, hpi⟩ := desc_trans k ip2 ip hd2 hDiv hkd hki
        have habs : t.get k = none := hInv.descAbsent k hpd hpi
        have hne : k ≠ ip2 := fun he => by
          rw [he] at hkd
          exact lt_irrefl _ hkd
        rw [hget2, if_neg hne]
        exact habs
      · exact ⟨hip2, hxa, hya⟩

/-- `split_and_insert`, called on a Leaf position satisfying the descent
conditions, with the two involved items at distinct positions, yields a
`QInv` tree with the same items list. -/
theorem split_and_insert_QInv {T Internal : Type} [Spatial T]
    (u : Quadtree T Internal) (fuel : ℕ) (ip : HilbertIndex) (bi ai : ℕ)
    (t' : Quadtree T Internal) (hInv : QInv u)
    (hga : u.get ip = some (.Leaf ai))
    (hppar : ip.depth = 0 ∨ ∃ r, u.get (parentIdx ip) = some (.Internal r))
    (hbi : bi < u.items.length)
    (hdiff : ∀ aItem bItem, u.items.get? ai = some aItem →
        u.items.get? bi = some bItem → Spatial.xy aItem ≠ Spatial.xy bItem)
    (h : u.split_and_insert fuel ip bi = some t') :
    QInv t' ∧ t'.items = u.items := by
  have hai : ai < u.items.length := hInv.leafIdxValid ip ai hga
  obtain ⟨aItem, haItem⟩ : ∃ a, u.items.get? ai = some a :=
    ⟨_, List.get?_eq_get hai⟩
  obtain ⟨bItem, hbItem⟩ : ∃ b, u.items.get? bi = some b :=
    ⟨_, List.get?_eq_get hbi⟩
  have hvIdx : ip.index < 4 ^ ip.depth := hInv.keyValid ip _ hga
  have hrt : HilbertIndex.fromXYDepth ip.toXY ip.depth = ip :=
    HilbertIndex.fromXYDepth_toXY ip hvIdx
  have htx : ip.toXY.1 < 2 ^ ip.depth ∧ ip.toXY.2 < 2 ^ ip.depth := by
    have h2 : ip.toXY = HilbertIndex.txy ip.depth ip.index :=
      HilbertIndex.toXY_eq_txy ip.depth ip.index
    rw [h2]
    exact HilbertIndex.txy_lt ip.depth ip.index
  simp only [Quadtree.split_and_insert] at h
  rw [show Quadtree.get { u with internal := u.internal ++ [none] } ip
      = some (QuadtreeNode.Leaf ai) from hga] at h
  simp only at h
  rw [show Quadtree.get_item
        (Quadtree.safe_insert { u with internal := u.internal ++ [none] } ip
          (QuadtreeNode.Internal u.internal.length)) ai
      = some aItem from haItem] at h
  rw [show Quadtree.get_item
        (Quadtree.safe_insert { u with internal := u.internal ++ [none] } ip
          (QuadtreeNode.Internal u.internal.length)) bi
      = some bItem from hbItem] at h
  simp only at h
  rw [if_neg (hdiff aItem bItem haItem hbItem)] at h
  set t2 := Quadtree.safe_insert { u with internal := u.internal ++ [none] } ip
    (QuadtreeNode.Internal u.internal.length) with ht2
  have hget2 : ∀ k, t2.get k
      = if k = ip then some (.Internal u.internal.length) else u.get k :=
    fun k => Quadtree.get_safe_insert _ ip k _
  have hipget : t2.get ip = some (.Internal u.internal.length) := by
    rw [hget2, if_pos rfl]
  have hLI : LoopInv t2 ip ip.toXY.1 ip.toXY.2 := by
    refine ⟨?_, ?_, ?_, ?_, ?_, ?_, ?_⟩
    · intro k n hk
      rw [hget2] at hk
      split_ifs at hk with h1
      · subst h1
        exact hvIdx
      · exact hInv.keyValid k n hk
    · intro k n hk hd
      rw [hget2] at hk
      split_ifs at hk with h1
      · subst h1
        obtain ⟨r0, hr0⟩ := hppar.resolve_left (by omega)
        have hne : parentIdx k ≠ k :=
          hi_ne_of_depth (show k.depth - 1 ≠ k.depth by omega)
        refine ⟨r0, ?_⟩
        rw [hget2, if_neg hne]
        exact hr0
      · by_cases hp : parentIdx k = ip
        · refine ⟨u.internal.length, ?_⟩
          rw [hp]
          exact hipget
        · obtain ⟨r0, hr0⟩ := hInv.parentInternal k n hk hd
          refine ⟨r0, ?_⟩
          rw [hget2, if_neg hp]
          exact hr0
    · intro k r hk hkne
      rw [hget2] at hk
      split_ifs at hk with h1
      · exact absurd h1 hkne
      · obtain ⟨j, hj, hch⟩ := hInv.internalHasChild k r hk
        refine ⟨j, hj, ?_⟩
        rw [hget2]
        split_ifs with hh
        · simp
        · exact hch
    · intro k i hk
      rw [hget2] at hk
      split_ifs at hk with h1
      · exact absurd hk (by simp)
      · exact hInv.leafIdxValid k i hk
    · exact ⟨u.internal.length, hipget⟩
    · intro k hkd hki
      have habs : u.get k = none := desc_of_leaf_absent u hInv ip ai hga k hkd hki
      have hne : k ≠ ip := hi_ne_of_depth (by omega)
      rw [hget2, if_neg hne]
      exact habs
    · exact ⟨hrt.symm, htx.1, htx.2⟩
  have hres := splitLoop_inv ai bi (Spatial.xy aItem) (Spatial.xy bItem)
    fuel t2 ip ip.toXY.1 ip.toXY.2 _ _ t' h hLI hai hbi
  exact hres

theorem QInv_append_items {T Internal : Type} (t : Quadtree T Internal) (l : List T)
    (hInv : QInv t) : QInv { t with items := t.items ++ l } := by
  refine ⟨hInv.keyValid, hInv.parentInternal, hInv.internalHasChild, ?_⟩
  intro k i hk
  have h2 := hInv.leafIdxValid k i hk
  show i < (t.items ++ l).length
  rw [List.length_append]
  omega

/-- `add` preserves the structural invariant, provided the inserted item's
position differs from the position of every item already in the items list;
the items list is unchanged (out-of-bounds drop) or grows by the new item. -/
theorem add_preserves_QInv {T Internal : Type} [Spatial T]
    (t : Quadtree T Internal) (fuel : ℕ) (item : T) (t' : Quadtree T Internal)
    (hInv : QInv t)
    (hdisj : ∀ i a, t.items.get? i = some a → Spatial.xy a ≠ Spatial.xy item)
    (h : t.add fuel item = some t') :
    QInv t' ∧ (t'.items = t.items ∨ t'.items = t.items ++ [item]) := by
  simp only [Quadtree.add] at h
  by_cases hoob : (Spatial.xy item).x < t.min.x ∨ (Spatial.xy item).x > t.max.x ∨
      (Spatial.xy item).y < t.min.y ∨ (Spatial.xy item).y > t.max.y
  · rw [if_pos hoob] at h
    obtain rfl := Option.some.inj h
    exact ⟨hInv, Or.inl rfl⟩
  · rw [if_neg hoob] at h
    rcases hfip : Quadtree.find_insert_pos t fuel (Spatial.xy item) with _ | insertPos
    · simp only [hfip] at h
      exact Option.noConfusion h
    · simp only [hfip] at h
      have hfip2 : Quadtree.findInsertPosLoop t (Spatial.xy item) fuel (0, 0)
          ⟨0, 0⟩ t.min t.max = some insertPos := hfip
      have h00 : HilbertIndex.fromXYDepth (0, 0) 0 = ⟨0, 0⟩ := by
        show (⟨HilbertIndex.fromXYLoop (2 ^ 0) (2 ^ 0 / 2) 0 0, 0⟩ : HilbertIndex)
          = ⟨0, 0⟩
        rw [show (2:ℕ) ^ 0 / 2 = 0 from rfl, HilbertIndex.fromXYLoop_zero]
      obtain ⟨hempty, hvalid, hppar⟩ := findInsertPosLoop_spec t (Spatial.xy item)
        fuel (0, 0) ⟨0, 0⟩ t.min t.max insertPos hfip2 h00.symm (by decide)
        (by decide) (Or.inl rfl)
      rcases hempty with hnone | ⟨ai, hleaf⟩
      · rw [show Quadtree.get { t with items := t.items ++ [item] } insertPos
            = none from hnone] at h
        simp only at h
        obtain rfl := Option.some.inj h
        have hget1 : ∀ k, (Quadtree.safe_insert { t with items := t.items ++ [item] }
              insertPos (.Leaf t.items.length)).get k
            = if k = insertPos then some (.Leaf t.items.length) else t.get k :=
          fun k => Quadtree.get_safe_insert _ insertPos k _
        refine ⟨⟨?_, ?_, ?_, ?_⟩, Or.inr rfl⟩
        · intro k n hk
          rw [hget1] at hk
          split_ifs at hk with h1
          · subst h1
            obtain ⟨⟨xv, yv⟩, hrepv, hxv, hyv⟩ := hvalid
            rw [hrepv]
            exact HilbertIndex.fromXYDepth_index_lt _ _ _ hxv hyv
          · exact hInv.keyValid k n hk
        · intro k n hk hd
          rw [hget1] at hk
          split_ifs at hk with h1
          · subst h1
            rcases hppar with h0 | ⟨r0, hr0⟩
            · omega
            · refine ⟨r0, ?_⟩
              rw [hget1, if_neg (hi_ne_of_depth
                (show k.depth - 1 ≠ k.depth by omega))]
              exact hr0
          · obtain ⟨r0, hr0⟩ := hInv.parentInternal k n hk hd
            have hne : parentIdx k ≠ insertPos := fun he => by
              rw [he, hnone] at hr0
              exact Option.noConfusion hr0
            refine ⟨r0, ?_⟩
            rw [hget1, if_neg hne]
            exact hr0
        · intro k r hk
          rw [hget1] at hk
          split_ifs at hk with h1
          · exact absurd hk (by simp)
          · obtain ⟨j, hj, hch⟩ := hInv.internalHasChild k r hk
            refine ⟨j, hj, ?_⟩
            rw [hget1]
            split_ifs with hh
            · simp
            · exact hch
        · intro k i hk
          rw [hget1] at hk
          split_ifs at hk with h1
          · obtain rfl : t.items.length = i := by simpa using hk
            show t.items.length < (t.items ++ [item]).length
            rw [List.length_append]
            simp
          · have h2 := hInv.leafIdxValid k i hk
            show i < (t.items ++ [item]).length
            rw [List.length_append]
            omega
      · rw [show Quadtree.get { t with items := t.items ++ [item] } insertPos
            = some (QuadtreeNode.Leaf ai) from hleaf] at h
        simp only at h
        have hai : ai < t.items.length := hInv.leafIdxValid insertPos ai hleaf
        have hres := split_and_insert_QInv { t with items := t.items ++ [item] }
          fuel insertPos t.items.length ai t'
          (QInv_append_items t [item] hInv) hleaf hppar
          (by show t.items.length < (t.items ++ [item]).length; simp)
          (fun aI bI haI hbI => by
            rw [show ({ t with items := t.items ++ [item] } :
                Quadtree T Internal).items = t.items ++ [item] from rfl] at haI hbI
            rw [List.get?_append hai] at haI
            rw [List.get?_concat_length] at hbI
            obtain rfl := Option.some.inj hbI
            exact hdisj ai aI haI) h
        exact ⟨hres.1, Or.inr hres.2⟩

/-- A finite sequence of `add` calls (each with its own fuel), as performed
when populating a freshly constructed tree. -/
def addAll {T Internal : Type} [Spatial T] :
    Quadtree T Internal → List (T × ℕ) → Option (Quadtree T Internal)
  | t, [] => some t
  | t, (x, fuel) :: rest =>
    match t.add fuel x with
    | none => none
    | some t2 => addAll t2 rest

theorem QInv_empty {T Internal : Type} (mn mx : Vec2d) :
    QInv (⟨mn, mx, [], [], []⟩ : Quadtree T Internal) :=
  ⟨fun _ _ hk => Option.noConfusion hk, fun _ _ hk _ => Option.noConfusion hk,
   fun _ _ hk => Option.noConfusion hk, fun _ _ hk => Option.noConfusion hk⟩

theorem addAll_QInv {T Internal : Type} [Spatial T] :
    ∀ (l : List (T × ℕ)) (t t' : Quadtree T Internal), QInv t →
    (∀ i a, t.items.get? i = some a → ∀ b ∈ l, Spatial.xy a ≠ Spatial.xy b.1) →
    l.Pairwise (fun a b => Spatial.xy a.1 ≠ Spatial.xy b.1) →
    addAll t l = some t' → QInv t' := by
  intro l
  induction l with
  | nil =>
    intro t t' hInv _ _ h
    obtain rfl := Option.some.inj h
    exact hInv
  | cons p rest ih =>
    obtain ⟨x, fuel⟩ := p
    intro t t' hInv hdis hpw h
    simp only [addAll] at h
    rcases hadd : t.add fuel x with _ | t2
    · rw [hadd] at h
      exact Option.noConfusion h
    · rw [hadd] at h
      obtain ⟨hpwx, hpwrest⟩ := List.pairwise_cons.mp hpw
      obtain ⟨hInv2, hitems⟩ := add_preserves_QInv t fuel x t2 hInv
        (fun i a hga => hdis i a hga (x, fuel) (List.mem_cons_self _ _)) hadd
    -- the new items list is still position-disjoint from the remaining inserts
      refine ih t2 t' hInv2 ?_ hpwrest h
      intro i a hga b hb
      rcases hitems with he | he
      · rw [he] at hga
        exact hdis i a hga b (List.mem_cons_of_mem _ hb)
      · rw [he] at hga
        by_cases hi : i < t.items.length
        · rw [List.get?_append hi] at hga
          exact hdis i a hga b (List.mem_cons_of_mem _ hb)
        · rw [List.get?_append_right (by omega)] at hga
          rcases hm : i - t.items.length with _ | m
          · rw [hm] at hga
            obtain rfl := Option.some.inj hga
            exact hpwx b hb
          · rw [hm] at hga
            exact Option.noConfusion hga

/-- C4 (amended): after any finite sequence of successful `add` calls on a
freshly constructed quadtree, **provided the added items' positions are
pairwise distinct**, every HilbertIndex mapped to an Internal node has at
least one of its four children (raw indices `4*index + 0..3` at `depth+1`)
present in the node map.  (Without the distinctness proviso the property
fails, see the counterexample.) -/
theorem internal_always_has_child {T Internal : Type} [Spatial T]
    (mn mx : Vec2d) (t0 t' : Quadtree T Internal) (l : List (T × ℕ))
    (hnew : Quadtree.new mn mx = Except.ok t0)
    (hpw : l.Pairwise (fun a b => Spatial.xy a.1 ≠ Spatial.xy b.1))
    (hrun : addAll t0 l = some t')
    (k : HilbertIndex) (r : ℕ) (hk : t'.get k = some (QuadtreeNode.Internal r)) :
    ∃ j, j < 4 ∧ t'.get ⟨4 * k.index + j, k.depth + 1⟩ ≠ none := by
  obtain rfl : (⟨mn, mx, [], [], []⟩ : Quadtree T Internal) = t0 :=
    Except.ok.inj hnew
  have hInv := addAll_QInv l _ t' (QInv_empty mn mx)
    (fun _ _ hga => Option.noConfusion hga) hpw hrun
  exact hInv.internalHasChild k r hk

set_option maxRecDepth 1000000 in
/-- Witness for the C4 theorem: two adds at distinct positions (1,1), (3,3)
on a tree over [(0,0),(4,4)]; the root becomes Internal and indeed has its
child (0, depth 1) present. -/
theorem internal_always_has_child_witness :
    ∃ j, j < 4 ∧ (⟨⟨0,0⟩, ⟨4,4⟩, [galaxy.starAt ⟨1,1⟩, galaxy.starAt ⟨3,3⟩], [none],
        [(⟨2,1⟩, QuadtreeNode.Leaf 1), (⟨0,1⟩, QuadtreeNode.Leaf 0),
         (⟨0,0⟩, QuadtreeNode.Internal 0)]⟩ : Quadtree galaxy.Star galaxy.Region).get
        ⟨4 * 0 + j, 0 + 1⟩ ≠ none :=
  internal_always_has_child ⟨0,0⟩ ⟨4,4⟩ _ _
    [(galaxy.starAt ⟨1,1⟩, 4), (galaxy.starAt ⟨3,3⟩, 4)] rfl
    (by decide) (by with_unfolding_all rfl) ⟨0,0⟩ 0 (by decide)

namespace galaxy

/-! ## The force evaluator, mass aggregation and integrator from
`src/galaxy.rs`.  `f64::sqrt` is modelled as an explicit parameter
`sqrt : ℚ → ℚ`; panics (`expect`) and potentially unbounded recursion are
modelled with fuel and `Option` (`none` = panic or fuel exhausted). -/

/-- One child-processing step of the `for child_index in index.children()`
loop of `Galaxy::update_mass_distribution_inner`, parameterised by the
recursive call `rec` (the recursion at smaller fuel).  The state is the
quadtree together with the accumulated `mass` and (unnormalised)
`center_of_mass`. -/
def mdChildStep (rec : Quadtree Star Region → HilbertIndex → Option (Quadtree Star Region))
    (state : Option (Quadtree Star Region × ℚ × Vec2d)) (ci : HilbertIndex) :
    Option (Quadtree Star Region × ℚ × Vec2d) :=
  match state with
  | none => none
  | some (t, mass, com) =>
    match t.get ci with
    | none => some (t, mass, com)
    | some (.Internal region_index) =>
      match rec t ci with
      | none => none
      | some t2 =>
        match t2.get_internal region_index with
        | none => none
        | some region =>
          some (t2, mass + region.mass,
            ⟨com.x + region.mass * region.center_of_mass.x,
             com.y + region.mass * region.center_of_mass.y⟩)
    | some (.Leaf item_index) =>
      match t.get_item item_index with
      | none => none
      | some star =>
        some (t, mass + star.mass,
          ⟨com.x + star.position.x, com.y + star.position.y⟩)

/-- `Galaxy::update_mass_distribution_inner` from `src/galaxy.rs`.  Note the
Leaf branch adds the star's raw position (not weighted by its mass) to the
accumulated center of mass, exactly as the source does. -/
def update_mass_distribution_inner :
    ℕ → Quadtree Star Region → HilbertIndex → Option (Quadtree Star Region)
  | 0, _, _ => none
  | fuel + 1, t, index =>
    match (HilbertIndex.children index).foldl
        (mdChildStep (fun t2 i2 => update_mass_distribution_inner fuel t2 i2))
        (some (t, 0, ⟨0, 0⟩)) with
    | none => none
    | some (t2, mass, com) =>
      let com2 : Vec2d := if mass ≠ 0 then ⟨com.x / mass, com.y / mass⟩ else com
      match t2.get index with
      | some (.Internal region_index) => t2.set_internal region_index (some ⟨com2, mass⟩)
      | _ => none

/-- `Galaxy::update_mass_distribution` from `src/galaxy.rs`: recurse only
when the root node exists and is internal, otherwise do nothing. -/
def update_mass_distribution (fuel : ℕ) (t : Quadtree Star Region) :
    Option (Quadtree Star Region) :=
  match t.get ⟨0, 0⟩ with
  | some (.Internal _) => update_mass_distribution_inner fuel t ⟨0, 0⟩
  | _ => some t

/-- `Galaxy::acceleration_at_point_inner` from `src/galaxy.rs`. -/
def acceleration_at_point_inner (sqrt : ℚ → ℚ) :
    ℕ → Quadtree Star Region → Vec2d → HilbertIndex → Option Vec2d
  | 0, _, _, _ => none
  | fuel + 1, t, point, index =>
    match t.get index with
    | some (.Leaf item_index) =>
      match t.get_item item_index with
      | none => none
      | some star =>
        let diff := star.position - point
        let d_squared := max MIN_GRAVITY_DISTANCE_SQUARED
          (diff.x * diff.x + diff.y * diff.y)
        if d_squared > 0 then
          let dist := sqrt d_squared
          let dir := diff / dist
          let force_of_star_gravity := star.mass * GRAVITATIONAL_CONSTANT / d_squared
          some ((⟨0, 0⟩ : Vec2d) + dir * force_of_star_gravity)
        else
          some (⟨0, 0⟩ : Vec2d)
    | some (.Internal region_index) =>
      match t.get_internal region_index with
      | none => none
      | some region =>
        let diff := region.center_of_mass - point
        let dist_squared := diff.x * diff.x + diff.y * diff.y
        let dist := sqrt dist_squared
        let node_size := GALAXY_DIAMETER / 2 ^ index.depth
        let dir := diff / dist
        if dist ≠ 0 ∧ node_size / dist > 1 then
          some ((⟨0, 0⟩ : Vec2d) + dir * (region.mass * GRAVITATIONAL_CONSTANT / dist_squared))
        else
          (HilbertIndex.children index).foldl
            (fun acc ci => acc.bind fun f =>
              (acceleration_at_point_inner sqrt fuel t point ci).map fun f2 => f + f2)
            (some (⟨0, 0⟩ : Vec2d))
    | none => some (⟨0, 0⟩ : Vec2d)

/-- `Galaxy::acceleration_at_point` from `src/galaxy.rs`. -/
def acceleration_at_point (sqrt : ℚ → ℚ) (fuel : ℕ) (t : Quadtree Star Region)
    (point : Vec2d) : Option Vec2d :=
  acceleration_at_point_inner sqrt fuel t point ⟨0, 0⟩

/-- The `for i in 1..self.quadtree.items.len()` loop of `Galaxy::integrate`
from `src/galaxy.rs`, in-place and sequential: the acceleration for star `i`
is computed on the tree in which stars `1..i` are already updated.  The
velocity is updated first and the updated velocity is used for the position
update. -/
def integrateLoop (sqrt : ℚ → ℚ) (fuel : ℕ) (time_scale time_delta : ℚ)
    (t : Quadtree Star Region) (i : ℕ) : Option (Quadtree Star Region) :=
  if h : i < t.items.length then
    let star := t.items.get ⟨i, h⟩
    match acceleration_at_point sqrt fuel t star.position with
    | none => none
    | some acceleration =>
      let velocity2 := star.velocity + acceleration * time_scale * time_delta
      let position2 := star.position + velocity2 * time_scale * time_delta
      integrateLoop sqrt fuel time_scale time_delta
        { t with items := t.items.set i ⟨position2, velocity2, star.mass⟩ } (i + 1)
  else
    some t
termination_by t.items.length - i
decreasing_by simp only [List.length_set]; omega

/-- `Galaxy::integrate` from `src/galaxy.rs`: the loop starts at index 1
(the black hole at index 0 is never integrated). -/
def integrate (sqrt : ℚ → ℚ) (fuel : ℕ) (time_scale time_delta : ℚ)
    (t : Quadtree Star Region) : Option (Quadtree Star Region) :=
  integrateLoop sqrt fuel time_scale time_delta t 1

end galaxy

/-- Full characterisation of the integration loop from start index `i`:
indices below `i` are untouched, the length is preserved, and every star at
index `m ≥ i` is semi-implicit-Euler-updated using an acceleration computed
on the intermediate tree (which agrees with `t` on all indices `≥ m` and on
everything except the items list). -/
theorem integrateLoop_spec (sqrt : ℚ → ℚ) (fuel : ℕ) (ts dt : ℚ) :
    ∀ (n : ℕ) (t : Quadtree galaxy.Star galaxy.Region) (i : ℕ)
      (t' : Quadtree galaxy.Star galaxy.Region),
    t.items.length - i = n →
    galaxy.integrateLoop sqrt fuel ts dt t i = some t' →
    ((∀ j, j < i → t'.items.get? j = t.items.get? j) ∧
     t'.items.length = t.items.length ∧
     ∀ m s, i ≤ m → t.items.get? m = some s →
       ∃ (tm : Quadtree galaxy.Star galaxy.Region) (acc : Vec2d),
         tm.min = t.min ∧ tm.max = t.max ∧ tm.nodes = t.nodes ∧
         tm.internal = t.internal ∧
         (∀ j, m ≤ j → tm.items.get? j = t.items.get? j) ∧
         galaxy.acceleration_at_point sqrt fuel tm s.position = some acc ∧
         t'.items.get? m = some ⟨s.position + (s.velocity + acc * ts * dt) * ts * dt,
           s.velocity + acc * ts * dt, s.mass⟩) := by
  intro n
  induction n with
  | zero =>
    intro t i t' hn h
    rw [galaxy.integrateLoop] at h
    rw [dif_neg (show ¬ i < t.items.length by omega)] at h
    obtain rfl := Option.some.inj h
    refine ⟨fun j _ => rfl, rfl, ?_⟩
    intro m s hm hs
    obtain ⟨hlt, _⟩ := List.get?_eq_some.mp hs
    omega
  | succ n ihn =>
    intro t i t' hn h
    have hp : i < t.items.length := by omega
    rw [galaxy.integrateLoop] at h
    rw [dif_pos hp] at h
    set star := t.items.get ⟨i, hp⟩ with hstar
    rcases hacc : galaxy.acceleration_at_point sqrt fuel t star.position with _ | acc
    · simp only [hacc] at h
      exact Option.noConfusion h
    · simp only [hacc] at h
      set s2 : galaxy.Star := ⟨star.position + (star.velocity + acc * ts * dt) * ts * dt,
        star.velocity + acc * ts * dt, star.mass⟩ with hs2
      have hn2 : ({ t with items := t.items.set i s2 } :
          Quadtree galaxy.Star galaxy.Region).items.length - (i + 1) = n := by
        show (t.items.set i s2).length - (i + 1) = n
        rw [List.length_set]
        omega
      obtain ⟨hfr, hlen, hmain⟩ := ihn _ (i + 1) t' hn2 h
      have hlen2 : (t.items.set i s2).length = t.items.length := List.length_set ..
      refine ⟨?_, ?_, ?_⟩
      · intro j hj
        rw [hfr j (by omega)]
        show (t.items.set i s2).get? j = t.items.get? j
        exact List.get?_set_ne s2 t.items (by omega)
      · rw [hlen]
        exact hlen2
      · intro m s hm hs
        rcases Nat.eq_or_lt_of_le hm with hmi | hmi
        · -- m = i: the star updated in this very iteration; the intermediate
          -- tree is t itself
          subst hmi
          have hseq : s = star := by
            have h2 : t.items.get? i = some (t.items.get ⟨i, hp⟩) :=
              List.get?_eq_get hp
            rw [hs] at h2
            exact Option.some.inj h2
          refine ⟨t, acc, rfl, rfl, rfl, rfl, fun j _ => rfl,
            by rw [hseq]; exact hacc, ?_⟩
          rw [hfr i (by omega)]
          show (t.items.set i s2).get? i = _
          rw [List.get?_set_eq_of_lt s2 hp, hs2, hseq]
        · -- m > i: handled by the recursive call on the updated tree
          have hs3 : ({ t with items := t.items.set i s2 } :
              Quadtree galaxy.Star galaxy.Region).items.get? m = some s := by
            show (t.items.set i s2).get? m = some s
            rw [List.get?_set_ne s2 t.items (by omega)]
            exact hs
          obtain ⟨tm, acc2, h1, h2, h3, h4, h5, h6, h7⟩ := hmain m s hmi hs3
          refine ⟨tm, acc2, h1, h2, h3, h4, ?_, h6, h7⟩
          intro j hj
          rw [h5 j hj]
          show (t.items.set i s2).get? j = t.items.get? j
          exact List.get?_set_ne s2 t.items (by omega)

/-- C10: every call to `integrate` leaves the body at index 0 of the items
list (the supermassive black hole inserted first at galaxy construction)
unchanged, position and velocity included: the integration loop runs over
`1..items.len()` only. -/
theorem integrate_preserves_first_item (sqrt : ℚ → ℚ) (fuel : ℕ) (ts dt : ℚ)
    (t t' : Quadtree galaxy.Star galaxy.Region)
    (h : galaxy.integrate sqrt fuel ts dt t = some t') :
    t'.items.get? 0 = t.items.get? 0 :=
  (integrateLoop_spec sqrt fuel ts dt (t.items.length - 1) t 1 t' rfl h).1 0
    (by omega)

/-- Witness for C10: a two-body galaxy with an empty node map; integrating
leaves the body at index 0 untouched. -/
theorem integrate_preserves_first_item_witness :
    (⟨⟨-4, -4⟩, ⟨4, 4⟩, [⟨⟨0, 0⟩, ⟨0, 0⟩, galaxy.SUPERMASSIVE_BLACK_HOLE_MASS⟩,
        ⟨⟨1, 1⟩, ⟨0, 0⟩, 1⟩], [], []⟩ :
        Quadtree galaxy.Star galaxy.Region).items.get? 0
      = (⟨⟨-4, -4⟩, ⟨4, 4⟩, [⟨⟨0, 0⟩, ⟨0, 0⟩, galaxy.SUPERMASSIVE_BLACK_HOLE_MASS⟩,
        ⟨⟨1, 1⟩, ⟨0, 0⟩, 1⟩], [], []⟩ :
        Quadtree galaxy.Star galaxy.Region).items.get? 0 :=
  integrate_preserves_first_item (fun _ => 0) 1 1000 1 _ _
    (by with_unfolding_all rfl)

/-- C8: for every body that `integrate` updates (index `i ≥ 1`), the new
velocity is the old velocity plus `acceleration * time_scale * dt` and the
new position is the old position plus the NEW velocity times
`time_scale * dt` (semi-implicit Euler).  The acceleration is evaluated on
the intermediate tree `tm`, which agrees with the pre-call tree everywhere
except that items `1..i` have already been updated in place. -/
theorem integrate_semi_implicit_euler (sqrt : ℚ → ℚ) (fuel : ℕ) (ts dt : ℚ)
    (t t' : Quadtree galaxy.Star galaxy.Region) (i : ℕ) (s : galaxy.Star)
    (h : galaxy.integrate sqrt fuel ts dt t = some t')
    (hi : 1 ≤ i) (hs : t.items.get? i = some s) :
    ∃ (tm : Quadtree galaxy.Star galaxy.Region) (acc : Vec2d),
      tm.min = t.min ∧ tm.max = t.max ∧ tm.nodes = t.nodes ∧
      tm.internal = t.internal ∧
      (∀ j, i ≤ j → tm.items.get? j = t.items.get? j) ∧
      galaxy.acceleration_at_point sqrt fuel tm s.position = some acc ∧
      t'.items.get? i = some ⟨s.position + (s.velocity + acc * ts * dt) * ts * dt,
        s.velocity + acc * ts * dt, s.mass⟩ :=
  (integrateLoop_spec sqrt fuel ts dt (t.items.length - 1) t 1 t' rfl h).2.2 i s hi hs

/-- A concrete two-body tree for the C8 witness: unit-mass star at (0,0)
stored in a Leaf at the root, second body at (3,0). -/
def c8T : Quadtree galaxy.Star galaxy.Region :=
  ⟨⟨-4, -4⟩, ⟨4, 4⟩, [⟨⟨0, 0⟩, ⟨0, 0⟩, 1⟩, ⟨⟨3, 0⟩, ⟨0, 0⟩, 1⟩], [],
    [(⟨0, 0⟩, .Leaf 0)]⟩

/-- The result of integrating `c8T` with time scale 1 and dt 1: the body at
index 1 gains velocity `(-G/9, 0) = (-43/90000, 0)` and moves by it. -/
def c8T2 : Quadtree galaxy.Star galaxy.Region :=
  ⟨⟨-4, -4⟩, ⟨4, 4⟩, [⟨⟨0, 0⟩, ⟨0, 0⟩, 1⟩,
    ⟨⟨269957/90000, 0⟩, ⟨-43/90000, 0⟩, 1⟩], [], [(⟨0, 0⟩, .Leaf 0)]⟩

/-- The square root oracle for the C8 witness (only `sqrt 9 = 3` is used). -/
def c8sqrt : ℚ → ℚ := fun q => if q = 9 then 3 else 0

set_option maxRecDepth 1000000 in
/-- Witness for C8 at the concrete two-body galaxy `c8T`. -/
theorem integrate_semi_implicit_euler_witness :
    ∃ (tm : Quadtree galaxy.Star galaxy.Region) (acc : Vec2d),
      tm.min = c8T.min ∧ tm.max = c8T.max ∧ tm.nodes = c8T.nodes ∧
      tm.internal = c8T.internal ∧
      (∀ j, 1 ≤ j → tm.items.get? j = c8T.items.get? j) ∧
      galaxy.acceleration_at_point c8sqrt 1 tm
          (⟨⟨3, 0⟩, ⟨0, 0⟩, 1⟩ : galaxy.Star).position = some acc ∧
      c8T2.items.get? 1 = some
        ⟨(⟨⟨3, 0⟩, ⟨0, 0⟩, 1⟩ : galaxy.Star).position
            + ((⟨⟨3, 0⟩, ⟨0, 0⟩, 1⟩ : galaxy.Star).velocity + acc * (1:ℚ) * (1:ℚ)) * (1:ℚ) * (1:ℚ),
          (⟨⟨3, 0⟩, ⟨0, 0⟩, 1⟩ : galaxy.Star).velocity + acc * (1:ℚ) * (1:ℚ),
          (⟨⟨3, 0⟩, ⟨0, 0⟩, 1⟩ : galaxy.Star).mass⟩ :=
  integrate_semi_implicit_euler c8sqrt 1 1 1 c8T c8T2 1 ⟨⟨3, 0⟩, ⟨0, 0⟩, 1⟩
    (by with_unfolding_all rfl) (by omega) rfl

/-- Concrete tree for C1: root Internal (region: mass 100 centred at (0,0)),
single unit-mass star at (0,0) stored in the Leaf child (0, depth 1). -/
def c1T : Quadtree galaxy.Star galaxy.Region :=
  ⟨⟨0, 0⟩, ⟨4, 4⟩, [⟨⟨0, 0⟩, ⟨0, 0⟩, 1⟩],
    [some ⟨⟨0, 0⟩, 100⟩], [(⟨0, 15⟩, .Internal 0), (⟨0, 16⟩, .Leaf 0)]⟩

/-- Square root oracle for C1 (only `sqrt 1 = 1` is used). -/
def c1sqrt : ℚ → ℚ := fun q => if q = 1 then 1 else 0

set_option maxRecDepth 1000000 in
/-- C1 (counterexample): the evaluator at the Internal node (0, depth 15) of
`c1T`, for the query point (1, 0): the node size is
`s = GALAXY_DIAMETER / 2^15 = 32408/32768 < 1 = d`, so `s/d < 1` and by the
claim the node should contribute as a single point mass of the region's
mass 100.  Instead the code (whose test `node_size / dist > 1.0` selects the
point-mass branch when `s/d > 1`, the opposite orientation) recurses into
the children and returns the lone leaf star's (mass 1) contribution, not the
point-mass value. -/
theorem acceleration_opening_angle_inverted :
    c1T.get ⟨0, 15⟩ = some (.Internal 0) ∧
    c1T.get_internal 0 = some ⟨⟨0, 0⟩, 100⟩ ∧
    c1sqrt 1 = 1 ∧
    galaxy.GALAXY_DIAMETER / 2 ^ (⟨0, 15⟩ : HilbertIndex).depth / 1 < 1 ∧
    galaxy.acceleration_at_point_inner c1sqrt 2 c1T ⟨1, 0⟩ ⟨0, 15⟩
      = some ⟨-43 / 10000, 0⟩ ∧
    galaxy.acceleration_at_point_inner c1sqrt 2 c1T ⟨1, 0⟩ ⟨0, 15⟩
      ≠ some ((⟨0, 0⟩ : Vec2d) + (((⟨0, 0⟩ : Vec2d) - ⟨1, 0⟩) / (1 : ℚ)) *
          ((100 : ℚ) * galaxy.GRAVITATIONAL_CONSTANT / (1 : ℚ))) :=
  ⟨by decide, by decide, by with_unfolding_all rfl, by with_unfolding_all decide,
   by with_unfolding_all rfl, by with_unfolding_all decide⟩

/-- C1 (amended): at an Internal node whose region data is present, with
`s = GALAXY_DIAMETER / 2^depth` the node size used by the code and
`d = sqrt(|com - point|^2) > 0` the distance to the aggregated center of
mass: if `d < s` (i.e. `s/d > 1`) the node contributes as a single point
mass at its center of mass, and if `s ≤ d` (i.e. `s/d ≤ 1`) the evaluator
recurses into the four children and sums their contributions.  This is the
OPPOSITE orientation of the claimed `s/d < 1 ⇒ point mass` criterion. -/
theorem acceleration_internal_cases (sqrt : ℚ → ℚ) (fuel : ℕ)
    (t : Quadtree galaxy.Star galaxy.Region) (point : Vec2d)
    (index : HilbertIndex) (ri : ℕ) (region : galaxy.Region) (d : ℚ)
    (hget : t.get index = some (.Internal ri))
    (hreg : t.get_internal ri = some region)
    (hdval : sqrt ((region.center_of_mass - point).x * (region.center_of_mass - point).x
      + (region.center_of_mass - point).y * (region.center_of_mass - point).y) = d)
    (hd : 0 < d) :
    (d < galaxy.GALAXY_DIAMETER / 2 ^ index.depth →
      galaxy.acceleration_at_point_inner sqrt (fuel + 1) t point index
        = some ((⟨0, 0⟩ : Vec2d) + ((region.center_of_mass - point) / d) *
            (region.mass * galaxy.GRAVITATIONAL_CONSTANT /
              ((region.center_of_mass - point).x * (region.center_of_mass - point).x
                + (region.center_of_mass - point).y * (region.center_of_mass - point).y)))) ∧
    (galaxy.GALAXY_DIAMETER / 2 ^ index.depth ≤ d →
      galaxy.acceleration_at_point_inner sqrt (fuel + 1) t point index
        = (HilbertIndex.children index).foldl
            (fun acc ci => acc.bind fun f =>
              (galaxy.acceleration_at_point_inner sqrt fuel t point ci).map fun f2 => f + f2)
            (some (⟨0, 0⟩ : Vec2d))) := by
  constructor
  · intro hlt
    simp only [galaxy.acceleration_at_point_inner, hget, hreg, hdval]
    rw [if_pos ⟨ne_of_gt hd, (one_lt_div hd).mpr hlt⟩]
  · intro hle
    simp only [galaxy.acceleration_at_point_inner, hget, hreg, hdval]
    rw [if_neg (fun hc => absurd ((one_lt_div hd).mp hc.2) (not_lt.mpr hle))]

set_option maxRecDepth 1000000 in
/-- Witness for the C1 theorem: at the depth-15 node of `c1T` the distance
d = 1 satisfies `s ≤ d`, and the evaluator indeed returns the sum over the
children. -/
theorem acceleration_internal_cases_witness :
    galaxy.GALAXY_DIAMETER / 2 ^ (⟨0, 15⟩ : HilbertIndex).depth ≤ (1 : ℚ) ∧
    galaxy.acceleration_at_point_inner c1sqrt 2 c1T ⟨1, 0⟩ ⟨0, 15⟩
      = some ⟨-43 / 10000, 0⟩ :=
  ⟨by with_unfolding_all decide,
   ((acceleration_internal_cases c1sqrt 1 c1T ⟨1, 0⟩ ⟨0, 15⟩ 0 ⟨⟨0, 0⟩, 100⟩ 1
      (by decide) (by decide) (by with_unfolding_all rfl)
      (by with_unfolding_all decide)).2
      (by with_unfolding_all decide)).trans (by with_unfolding_all rfl)⟩

/-- The total mass of the bodies in the subtree rooted at `k`, by the same
recursion structure as `update_mass_distribution_inner` (fuel consumed one
level per Internal node). -/
def subtreeMass : ℕ → Quadtree galaxy.Star galaxy.Region → HilbertIndex → ℚ
  | 0, t, k =>
    match t.get k with
    | some (.Leaf i) =>
      match t.get_item i with
      | some s => s.mass
      | none => 0
    | _ => 0
  | fuel + 1, t, k =>
    match t.get k with
    | none => 0
    | some (.Leaf i) =>
      match t.get_item i with
      | some s => s.mass
      | none => 0
    | some (.Internal _) =>
      ((HilbertIndex.children k).map (fun c => subtreeMass fuel t c)).sum

/-- `k` lies in the subtree of cell `c` (possibly `k = c`): `c` is the
ancestor of `k` at depth `c.depth`. -/
def inSubtree (c k : HilbertIndex) : Prop :=
  c.depth ≤ k.depth ∧ k.index / 4 ^ (k.depth - c.depth) = c.index

instance (c k : HilbertIndex) : Decidable (inSubtree c k) :=
  inferInstanceAs (Decidable (_ ∧ _))

theorem inSubtree_self (c : HilbertIndex) : inSubtree c c :=
  ⟨le_refl _, by rw [Nat.sub_self, pow_zero, Nat.div_one]⟩

theorem inSubtree_eq_of_depth_le {c k : HilbertIndex} (h : inSubtree c k)
    (hd : k.depth ≤ c.depth) : k = c := by
  obtain ⟨h1, h2⟩ := h
  have hd2 : k.depth = c.depth := le_antisymm hd h1
  rw [hd2, Nat.sub_self, pow_zero, Nat.div_one] at h2
  obtain ⟨ki, kd⟩ := k
  obtain ⟨ci, cd⟩ := c
  simp only at h2 hd2
  rw [h2, hd2]

/-- Splitting a subtree at its root: a cell is in the subtree of `c` iff it
is `c` itself or lies in the subtree of one of the four children of `c`. -/
theorem inSubtree_child_iff (c k : HilbertIndex) :
    inSubtree c k ↔ k = c ∨
      inSubtree ⟨c.index * 4 + 0, c.depth + 1⟩ k ∨
      inSubtree ⟨c.index * 4 + 1, c.depth + 1⟩ k ∨
      inSubtree ⟨c.index * 4 + 2, c.depth + 1⟩ k ∨
      inSubtree ⟨c.index * 4 + 3, c.depth + 1⟩ k := by
  constructor
  · intro ⟨h1, h2⟩
    rcases Nat.eq_or_lt_of_le h1 with hd | hd
    · exact Or.inl (inSubtree_eq_of_depth_le ⟨h1, h2⟩ (by omega))
    · right
      have hδ : k.depth - c.depth = (k.depth - (c.depth + 1)) + 1 := by omega
      have hdd : k.index / 4 ^ (k.depth - (c.depth + 1)) / 4 = c.index := by
        rw [Nat.div_div_eq_div_mul, ← pow_succ, ← hδ, h2]
      set a := k.index / 4 ^ (k.depth - (c.depth + 1)) with ha
      have hmod : a % 4 < 4 := Nat.mod_lt _ (by omega)
      have haeq : a = c.index * 4 + a % 4 := by
        conv_lhs => rw [← Nat.div_add_mod a 4]
        rw [hdd]
        ring
      have hsub : ∀ j, a % 4 = j →
          inSubtree ⟨c.index * 4 + j, c.depth + 1⟩ k := by
        intro j hj
        refine ⟨by show c.depth + 1 ≤ k.depth; omega, ?_⟩
        show k.index / 4 ^ (k.depth - (c.depth + 1)) = c.index * 4 + j
        rw [← ha, haeq, hj]
      interval_cases h : a % 4
      · exact Or.inl (hsub 0 rfl)
      · exact Or.inr (Or.inl (hsub 1 rfl))
      · exact Or.inr (Or.inr (Or.inl (hsub 2 rfl)))
      · exact Or.inr (Or.inr (Or.inr (hsub 3 rfl)))
  · intro h
    rcases h with rfl | h | h | h | h
    · exact inSubtree_self k
    all_goals {
      obtain ⟨h1, h2⟩ := h
      have h1' : c.depth + 1 ≤ k.depth := h1
      refine ⟨by omega, ?_⟩
      have hδ : k.depth - c.depth = (k.depth - (c.depth + 1)) + 1 := by omega
      rw [hδ, pow_succ, ← Nat.div_div_eq_div_mul, h2]
      dsimp only
      omega
    }

/-- Two distinct children of the same cell have disjoint subtrees. -/
theorem inSubtree_child_disjoint (c k : HilbertIndex) (j1 j2 : ℕ)
    (h1 : inSubtree ⟨c.index * 4 + j1, c.depth + 1⟩ k)
    (h2 : inSubtree ⟨c.index * 4 + j2, c.depth + 1⟩ k) : j1 = j2 := by
  obtain ⟨ha1, ha2⟩ := h1
  obtain ⟨hb1, hb2⟩ := h2
  dsimp only at ha2 hb2
  rw [ha2] at hb2
  omega

/-- The mass contributed by a node-map entry: the referenced body's mass for
a Leaf entry, 0 otherwise.  (Spec-side definition for C6: "the masses of all
bodies stored in Leaf nodes of the tree".) -/
def leafContribution (t : Quadtree galaxy.Star galaxy.Region)
    (p : HilbertIndex × QuadtreeNode) : ℚ :=
  match p.2 with
  | QuadtreeNode.Leaf i =>
    match t.get_item i with
    | some s => s.mass
    | none => 0
  | _ => 0

/-- Spec-side definition for C6: the sum of the masses of all bodies stored
in Leaf nodes of the tree (bodies in the items list not referenced by any
Leaf are excluded). -/
def leafMassSum (t : Quadtree galaxy.Star galaxy.Region) : ℚ :=
  (t.nodes.map (leafContribution t)).sum

/-- Whether an optional node is an Internal node (for stating decidable
parent-closure hypotheses on concrete trees). -/
def isInternalOpt : Option QuadtreeNode → Bool
  | some (QuadtreeNode.Internal _) => true
  | _ => false

theorem nodesGet_some_mem : ∀ (l : List (HilbertIndex × QuadtreeNode))
    (k : HilbertIndex) (n : QuadtreeNode),
    nodesGet l k = some n → (k, n) ∈ l := by
  intro l
  induction l with
  | nil =>
    intro k n h
    exact Option.noConfusion h
  | cons p rest ih =>
    intro k n h
    rw [nodesGet] at h
    split_ifs at h with hp
    · obtain rfl := Option.some.inj h
      have : p = (k, p.2) := by
        rw [← hp]
      rw [← this]
      exact List.mem_cons_self p rest
    · exact List.mem_cons_of_mem p (ih k n h)

theorem nodesGet_of_mem_nodup : ∀ (l : List (HilbertIndex × QuadtreeNode))
    (k : HilbertIndex) (n : QuadtreeNode),
    l.Pairwise (fun a b => a.1 ≠ b.1) → (k, n) ∈ l → nodesGet l k = some n := by
  intro l
  induction l with
  | nil =>
    intro k n _ h
    exact absurd h (List.not_mem_nil _)
  | cons p rest ih =>
    intro k n hnd hm
    obtain ⟨hhead, htail⟩ := List.pairwise_cons.mp hnd
    rcases List.mem_cons.mp hm with rfl | hm2
    · rw [nodesGet, if_pos rfl]
    · rw [nodesGet]
      have hne : p.1 ≠ k := hhead (k, n) hm2
      rw [if_neg hne]
      exact ih k n htail hm2

/-- With nodup keys, the entries whose key is `k` are exactly the single
entry found by lookup. -/
theorem filter_key_eq : ∀ (l : List (HilbertIndex × QuadtreeNode))
    (k : HilbertIndex) (n : QuadtreeNode),
    l.Pairwise (fun a b => a.1 ≠ b.1) → nodesGet l k = some n →
    l.filter (fun p => decide (p.1 = k)) = [(k, n)] := by
  intro l
  induction l with
  | nil =>
    intro k n _ h
    exact Option.noConfusion h
  | cons p rest ih =>
    intro k n hnd hg
    obtain ⟨hhead, htail⟩ := List.pairwise_cons.mp hnd
    rw [nodesGet] at hg
    rw [List.filter_cons]
    split_ifs at hg with hp
    · obtain rfl := Option.some.inj hg
      have hp2 : p = (k, p.2) := by rw [← hp]
      rw [show (decide (p.1 = k)) = true by simp [hp]]
      simp only [if_true]
      have hrest : rest.filter (fun q => decide (q.1 = k)) = [] := by
        rw [List.filter_eq_nil]
        intro q hq
        have := hhead q hq
        rw [hp] at this
        simp [this.symm]
      rw [hrest, ← hp2]
    · rw [show (decide (p.1 = k)) = false by simp [hp]]
      simp only [Bool.false_eq_true, if_false]
      exact ih k n htail hg

/-- Splitting a filtered mapped sum along a disjoint predicate cover. -/
theorem filter_map_sum_split {α : Type} (f : α → ℚ) (P Q R : α → Bool) :
    ∀ l : List α, (∀ a ∈ l, P a = (Q a || R a)) →
    (∀ a ∈ l, ¬(Q a = true ∧ R a = true)) →
    ((l.filter P).map f).sum = ((l.filter Q).map f).sum + ((l.filter R).map f).sum := by
  intro l
  induction l with
  | nil =>
    intro _ _
    simp
  | cons a l ih =>
    intro hPQ hdisj
    have ha := hPQ a (List.mem_cons_self a l)
    have hd := hdisj a (List.mem_cons_self a l)
    have ihl := ih (fun b hb => hPQ b (List.mem_cons_of_mem a hb))
      (fun b hb => hdisj b (List.mem_cons_of_mem a hb))
    rw [List.filter_cons, List.filter_cons, List.filter_cons]
    rcases hQ : Q a with _ | _ <;> rcases hR : R a with _ | _
    · rw [hQ, hR] at ha
      simp only [ha, hQ, hR, Bool.or_self, Bool.false_eq_true, if_false]
      exact ihl
    · rw [hQ, hR] at ha
      simp only [ha, hQ, hR, Bool.or_true, Bool.false_eq_true, if_false, if_true,
        List.map_cons, List.sum_cons]
      rw [ihl]
      ring
    · rw [hQ, hR] at ha
      simp only [ha, hQ, hR, Bool.true_or, Bool.false_eq_true, if_false, if_true,
        List.map_cons, List.sum_cons]
      rw [ihl]
      ring
    · exact absurd ⟨hQ, hR⟩ hd

theorem subtreeMass_none (fuel : ℕ) (t : Quadtree galaxy.Star galaxy.Region)
    (k : HilbertIndex) (h : t.get k = none) : subtreeMass fuel t k = 0 := by
  cases fuel with
  | zero => rw [subtreeMass, h]
  | succ fuel => rw [subtreeMass, h]

theorem subtreeMass_leaf (fuel : ℕ) (t : Quadtree galaxy.Star galaxy.Region)
    (k : HilbertIndex) (i : ℕ) (h : t.get k = some (.Leaf i)) :
    subtreeMass fuel t k
      = match t.get_item i with | some s => s.mass | none => 0 := by
  cases fuel with
  | zero => rw [subtreeMass, h]
  | succ fuel => rw [subtreeMass, h]

theorem subtreeMass_internal_succ (fuel : ℕ)
    (t : Quadtree galaxy.Star galaxy.Region) (k : HilbertIndex) (r : ℕ)
    (h : t.get k = some (.Internal r)) :
    subtreeMass (fuel + 1) t k
      = ((HilbertIndex.children k).map (fun c => subtreeMass fuel t c)).sum := by
  rw [subtreeMass, h]

theorem subtreeMass_internal_zero (t : Quadtree galaxy.Star galaxy.Region)
    (k : HilbertIndex) (r : ℕ) (h : t.get k = some (.Internal r)) :
    subtreeMass 0 t k = 0 := by
  rw [subtreeMass, h]

theorem subtreeMass_congr : ∀ (fuel : ℕ)
    (t u : Quadtree galaxy.Star galaxy.Region) (k : HilbertIndex),
    t.nodes = u.nodes → t.items = u.items →
    subtreeMass fuel t k = subtreeMass fuel u k := by
  intro fuel
  induction fuel with
  | zero =>
    intro t u k hn hi
    have hget : t.get k = u.get k := by
      show nodesGet t.nodes k = nodesGet u.nodes k
      rw [hn]
    rcases hu : u.get k with _ | n
    · rw [subtreeMass_none 0 t k (hget.trans hu), subtreeMass_none 0 u k hu]
    · cases n with
      | Leaf i =>
        rw [subtreeMass_leaf 0 t k i (hget.trans hu), subtreeMass_leaf 0 u k i hu]
        have hitem : t.get_item i = u.get_item i := by
          show t.items.get? i = u.items.get? i
          rw [hi]
        rw [hitem]
      | Internal r =>
        rw [subtreeMass_internal_zero t k r (hget.trans hu),
          subtreeMass_internal_zero u k r hu]
  | succ fuel ih =>
    intro t u k hn hi
    have hget : t.get k = u.get k := by
      show nodesGet t.nodes k = nodesGet u.nodes k
      rw [hn]
    rcases hu : u.get k with _ | n
    · rw [subtreeMass_none _ t k (hget.trans hu), subtreeMass_none _ u k hu]
    · cases n with
      | Leaf i =>
        rw [subtreeMass_leaf _ t k i (hget.trans hu), subtreeMass_leaf _ u k i hu]
        have hitem : t.get_item i = u.get_item i := by
          show t.items.get? i = u.items.get? i
          rw [hi]
        rw [hitem]
      | Internal r =>
        rw [subtreeMass_internal_succ fuel t k r (hget.trans hu),
          subtreeMass_internal_succ fuel u k r hu]
        have he : (fun c => subtreeMass fuel t c) = (fun c => subtreeMass fuel u c) := by
          funext c
          exact ih t u c hn hi
        rw [he]

/-- Any node-map entry strictly inside the subtree of `k` forces `k` itself
to be a present Internal node (by walking up the parent chain). -/
theorem subtree_entry_root_internal (t : Quadtree galaxy.Star galaxy.Region)
    (hnd : t.nodes.Pairwise (fun a b => a.1 ≠ b.1))
    (hpc : ∀ k' n, t.get k' = some n → 0 < k'.depth →
      ∃ r, t.get (parentIdx k') = some (QuadtreeNode.Internal r))
    (k : HilbertIndex) (p : HilbertIndex × QuadtreeNode)
    (hp : p ∈ t.nodes) (hin : inSubtree k p.1) (hne : p.1 ≠ k) :
    ∃ r, t.get k = some (QuadtreeNode.Internal r) := by
  have hget : t.get p.1 = some p.2 := nodesGet_of_mem_nodup _ _ _ hnd hp
  obtain ⟨h1, h2⟩ := hin
  have hlt : k.depth < p.1.depth := by
    rcases Nat.eq_or_lt_of_le h1 with hd | hd
    · exact absurd (inSubtree_eq_of_depth_le ⟨h1, h2⟩ (by omega)) hne
    · exact hd
  obtain ⟨r, hr⟩ := ancestors_internal t hpc (p.1.depth - k.depth) p.1 p.2 hget
    (by omega) (by omega)
  refine ⟨r, ?_⟩
  have he : (⟨p.1.index / 4 ^ (p.1.depth - k.depth),
      p.1.depth - (p.1.depth - k.depth)⟩ : HilbertIndex) = k := by
    rw [h2, show p.1.depth - (p.1.depth - k.depth) = k.depth by omega]
  rw [← he]
  exact hr

theorem filter_sum_of_get_none (t : Quadtree galaxy.Star galaxy.Region)
    (k : HilbertIndex)
    (hnd : t.nodes.Pairwise (fun a b => a.1 ≠ b.1))
    (hpc : ∀ k' n, t.get k' = some n → 0 < k'.depth →
      ∃ r, t.get (parentIdx k') = some (QuadtreeNode.Internal r))
    (hget : t.get k = none) :
    ((t.nodes.filter (fun p => decide (inSubtree k p.1))).map
      (leafContribution t)).sum = 0 := by
  have hnil : t.nodes.filter (fun p => decide (inSubtree k p.1)) = [] := by
    rw [List.filter_eq_nil_iff]
    intro p hp hcon
    rw [decide_eq_true_eq] at hcon
    by_cases hpe : p.1 = k
    · have hm : t.get p.1 = some p.2 := nodesGet_of_mem_nodup t.nodes p.1 p.2 hnd hp
      rw [hpe, hget] at hm
      exact Option.noConfusion hm
    · obtain ⟨r, hr⟩ := subtree_entry_root_internal t hnd hpc k p hp hcon hpe
      rw [hget] at hr
      exact Option.noConfusion hr
  rw [hnil]
  rfl

theorem filter_sum_of_get_key (t : Quadtree galaxy.Star galaxy.Region)
    (k : HilbertIndex) (n : QuadtreeNode)
    (hnd : t.nodes.Pairwise (fun a b => a.1 ≠ b.1))
    (hget : t.get k = some n)
    (honly : ∀ p ∈ t.nodes, inSubtree k p.1 → p.1 = k) :
    ((t.nodes.filter (fun p => decide (inSubtree k p.1))).map
      (leafContribution t)).sum = leafContribution t (k, n) := by
  have hc : t.nodes.filter (fun p => decide (inSubtree k p.1))
      = t.nodes.filter (fun p => decide (p.1 = k)) := by
    apply List.filter_congr
    intro p hp
    rw [decide_eq_decide]
    constructor
    · exact honly p hp
    · intro h
      rw [h]
      exact inSubtree_self k
  rw [hc, filter_key_eq t.nodes k n hnd hget]
  simp

/-- The subtree mass equals the filtered sum over the node-map entries lying
in the subtree, given nodup keys, parent closure, and enough fuel for every
entry of the subtree. -/
theorem subtreeMass_eq_filter_sum :
    ∀ (fuel : ℕ) (t : Quadtree galaxy.Star galaxy.Region) (k : HilbertIndex),
    t.nodes.Pairwise (fun a b => a.1 ≠ b.1) →
    (∀ k' n, t.get k' = some n → 0 < k'.depth →
      ∃ r, t.get (parentIdx k') = some (QuadtreeNode.Internal r)) →
    (∀ p ∈ t.nodes, inSubtree k p.1 → p.1.depth ≤ k.depth + fuel) →
    subtreeMass fuel t k
      = ((t.nodes.filter (fun p => decide (inSubtree k p.1))).map
          (leafContribution t)).sum := by
  intro fuel
  induction fuel with
  | zero =>
    intro t k hnd hpc hdep
    rcases hget : t.get k with _ | n
    · rw [subtreeMass_none 0 t k hget, filter_sum_of_get_none t k hnd hpc hget]
    · cases n with
      | Leaf i =>
        have honly : ∀ p ∈ t.nodes, inSubtree k p.1 → p.1 = k := by
          intro p hp hin
          by_contra hne
          obtain ⟨r, hr⟩ := subtree_entry_root_internal t hnd hpc k p hp hin hne
          rw [hget] at hr
          exact QuadtreeNode.noConfusion (Option.some.inj hr)
        rw [subtreeMass_leaf 0 t k i hget,
          filter_sum_of_get_key t k (.Leaf i) hnd hget honly]
        rfl
      | Internal r =>
        have honly : ∀ p ∈ t.nodes, inSubtree k p.1 → p.1 = k := by
          intro p hp hin
          exact inSubtree_eq_of_depth_le hin (by have := hdep p hp hin; omega)
        rw [subtreeMass_internal_zero t k r hget,
          filter_sum_of_get_key t k (.Internal r) hnd hget honly]
        rfl
  | succ fuel ih =>
    intro t k hnd hpc hdep
    rcases hget : t.get k with _ | n
    · rw [subtreeMass_none _ t k hget, filter_sum_of_get_none t k hnd hpc hget]
    · cases n with
      | Leaf i =>
        have honly : ∀ p ∈ t.nodes, inSubtree k p.1 → p.1 = k := by
          intro p hp hin
          by_contra hne
          obtain ⟨r, hr⟩ := subtree_entry_root_internal t hnd hpc k p hp hin hne
          rw [hget] at hr
          exact QuadtreeNode.noConfusion (Option.some.inj hr)
        rw [subtreeMass_leaf _ t k i hget,
          filter_sum_of_get_key t k (.Leaf i) hnd hget honly]
        rfl
      | Internal r =>
        rw [subtreeMass_internal_succ fuel t k r hget]
        set c0 : HilbertIndex := ⟨k.index * 4 + 0, k.depth + 1⟩ with hc0
        set c1 : HilbertIndex := ⟨k.index * 4 + 1, k.depth + 1⟩ with hc1
        set c2 : HilbertIndex := ⟨k.index * 4 + 2, k.depth + 1⟩ with hc2
        set c3 : HilbertIndex := ⟨k.index * 4 + 3, k.depth + 1⟩ with hc3
        have hch : HilbertIndex.children k = [c0, c1, c2, c3] := rfl
        have hsplit1 :
            ((t.nodes.filter (fun p => decide (inSubtree k p.1))).map
              (leafContribution t)).sum
            = ((t.nodes.filter (fun p => decide (p.1 = k))).map
                (leafContribution t)).sum
              + ((t.nodes.filter (fun p => decide (inSubtree c0 p.1 ∨
                  inSubtree c1 p.1 ∨ inSubtree c2 p.1 ∨ inSubtree c3 p.1))).map
                (leafContribution t)).sum := by
          apply filter_map_sum_split (leafContribution t) _ _ _ t.nodes
          · intro a _
            rw [show (decide (inSubtree k a.1) : Bool)
                = decide (a.1 = k ∨ (inSubtree c0 a.1 ∨ inSubtree c1 a.1 ∨
                    inSubtree c2 a.1 ∨ inSubtree c3 a.1)) from
                decide_eq_decide.mpr (inSubtree_child_iff k a.1), Bool.decide_or]
          · intro a _ h
            obtain ⟨hq, hr2⟩ := h
            rw [decide_eq_true_eq] at hq hr2
            rcases hr2 with h2 | h2 | h2 | h2 <;>
              { have hd2 : k.depth + 1 ≤ a.1.depth := h2.1
                rw [hq] at hd2
                omega }
        have hsplit2 :
            ((t.nodes.filter (fun p => decide (inSubtree c0 p.1 ∨
                inSubtree c1 p.1 ∨ inSubtree c2 p.1 ∨ inSubtree c3 p.1))).map
              (leafContribution t)).sum
            = ((t.nodes.filter (fun p => decide (inSubtree c0 p.1))).map
                (leafContribution t)).sum
              + ((t.nodes.filter (fun p => decide (inSubtree c1 p.1 ∨
                  inSubtree c2 p.1 ∨ inSubtree c3 p.1))).map
                (leafContribution t)).sum := by
          apply filter_map_sum_split (leafContribution t) _ _ _ t.nodes
          · intro a _
            exact Bool.decide_or _ _
          · intro a _ h
            obtain ⟨hq, hr2⟩ := h
            rw [decide_eq_true_eq] at hq hr2
            rcases hr2 with h2 | h2 | h2 <;>
              [exact absurd (inSubtree_child_disjoint k a.1 0 1 hq h2) (by omega);
               exact absurd (inSubtree_child_disjoint k a.1 0 2 hq h2) (by omega);
               exact absurd (inSubtree_child_disjoint k a.1 0 3 hq h2) (by omega)]
        have hsplit3 :
            ((t.nodes.filter (fun p => decide (inSubtree c1 p.1 ∨
                inSubtree c2 p.1 ∨ inSubtree c3 p.1))).map
              (leafContribution t)).sum
            = ((t.nodes.filter (fun p => decide (inSubtree c1 p.1))).map
                (leafContribution t)).sum
              + ((t.nodes.filter (fun p => decide (inSubtree c2 p.1 ∨
                  inSubtree c3 p.1))).map (leafContribution t)).sum := by
          apply filter_map_sum_split (leafContribution t) _ _ _ t.nodes
          · intro a _
            exact Bool.decide_or _ _
          · intro a _ h
            obtain ⟨hq, hr2⟩ := h
            rw [decide_eq_true_eq] at hq hr2
            rcases hr2 with h2 | h2 <;>
              [exact absurd (inSubtree_child_disjoint k a.1 1 2 hq h2) (by omega);
               exact absurd (inSubtree_child_disjoint k a.1 1 3 hq h2) (by omega)]
        have hsplit4 :
            ((t.nodes.filter (fun p => decide (inSubtree c2 p.1 ∨
                inSubtree c3 p.1))).map (leafContribution t)).sum
            = ((t.nodes.filter (fun p => decide (inSubtree c2 p.1))).map
                (leafContribution t)).sum
              + ((t.nodes.filter (fun p => decide (inSubtree c3 p.1))).map
                (leafContribution t)).sum := by
          apply filter_map_sum_split (leafContribution t) _ _ _ t.nodes
          · intro a _
            exact Bool.decide_or _ _
          · intro a _ h
            obtain ⟨hq, hr2⟩ := h
            rw [decide_eq_true_eq] at hq hr2
            exact absurd (inSubtree_child_disjoint k a.1 2 3 hq hr2) (by omega)
        have hk0 : ((t.nodes.filter (fun p => decide (p.1 = k))).map
            (leafContribution t)).sum = 0 := by
          rw [filter_key_eq t.nodes k (.Internal r) hnd hget]
          simp [leafContribution]
        have hdc : ∀ (j : ℕ) (c : HilbertIndex), c = ⟨k.index * 4 + j, k.depth + 1⟩ →
            (∀ q, inSubtree c q → inSubtree k q) →
            ∀ p ∈ t.nodes, inSubtree c p.1 → p.1.depth ≤ c.depth + fuel := by
          intro j c hceq htrans p hp hin
          have hin2 : inSubtree k p.1 := htrans p.1 hin
          have := hdep p hp hin2
          have hcd : c.depth = k.depth + 1 := by rw [hceq]
          omega
        have htr : ∀ (c : HilbertIndex),
            (inSubtree c0 c ∨ inSubtree c1 c ∨ inSubtree c2 c ∨ inSubtree c3 c) →
            inSubtree k c := fun c h =>
          (inSubtree_child_iff k c).mpr (Or.inr h)
        have hih0 := ih t c0 hnd hpc
          (hdc 0 c0 rfl (fun q hq => htr q (Or.inl hq)))
        have hih1 := ih t c1 hnd hpc
          (hdc 1 c1 rfl (fun q hq => htr q (Or.inr (Or.inl hq))))
        have hih2 := ih t c2 hnd hpc
          (hdc 2 c2 rfl (fun q hq => htr q (Or.inr (Or.inr (Or.inl hq)))))
        have hih3 := ih t c3 hnd hpc
          (hdc 3 c3 rfl (fun q hq => htr q (Or.inr (Or.inr (Or.inr hq)))))
        rw [hch, List.map_cons, List.map_cons, List.map_cons, List.map_cons,
          List.map_nil, List.sum_cons, List.sum_cons, List.sum_cons,
          List.sum_cons, List.sum_nil]
        rw [hsplit1, hsplit2, hsplit3, hsplit4, hk0, hih0, hih1, hih2, hih3]
        ring

theorem mdFold_none
    (rec : Quadtree galaxy.Star galaxy.Region → HilbertIndex →
      Option (Quadtree galaxy.Star galaxy.Region)) :
    ∀ cs : List HilbertIndex,
      List.foldl (galaxy.mdChildStep rec) none cs = none := by
  intro cs
  induction cs with
  | nil => rfl
  | cons ci cs ih =>
    rw [List.foldl_cons]
    exact ih

/-- Invariant of the child-processing fold of
`update_mass_distribution_inner`: the node map and items are untouched, the
internal store keeps its length, and the accumulated mass is the sum of the
child subtree masses. -/
theorem mdFold_spec (fuel : ℕ)
    (ihF : ∀ (t : Quadtree galaxy.Star galaxy.Region) (k : HilbertIndex)
      (t' : Quadtree galaxy.Star galaxy.Region),
      galaxy.update_mass_distribution_inner fuel t k = some t' →
      t'.nodes = t.nodes ∧ t'.items = t.items ∧
        t'.internal.length = t.internal.length ∧
      ∀ ri, t.get k = some (.Internal ri) →
        ∃ com, t'.get_internal ri = some ⟨com, subtreeMass fuel t k⟩) :
    ∀ (cs : List HilbertIndex) (t0 t : Quadtree galaxy.Star galaxy.Region)
      (mass : ℚ) (com : Vec2d)
      (res : Quadtree galaxy.Star galaxy.Region × ℚ × Vec2d),
    t.nodes = t0.nodes → t.items = t0.items →
    t.internal.length = t0.internal.length →
    List.foldl (galaxy.mdChildStep
        (fun t2 i2 => galaxy.update_mass_distribution_inner fuel t2 i2))
      (some (t, mass, com)) cs = some res →
    res.1.nodes = t0.nodes ∧ res.1.items = t0.items ∧
      res.1.internal.length = t0.internal.length ∧
      res.2.1 = mass + (cs.map (fun c => subtreeMass fuel t0 c)).sum := by
  intro cs
  induction cs with
  | nil =>
    intro t0 t mass com res hn hi hl hfold
    obtain rfl := Option.some.inj hfold
    exact ⟨hn, hi, hl, by simp⟩
  | cons ci cs ih2 =>
    intro t0 t mass com res hn hi hl hfold
    rw [List.foldl_cons] at hfold
    rcases hg : t.get ci with _ | nd
    · simp only [galaxy.mdChildStep, hg] at hfold
      obtain ⟨f1, f2, f3, f4⟩ := ih2 t0 t mass com res hn hi hl hfold
      refine ⟨f1, f2, f3, ?_⟩
      have hzero : subtreeMass fuel t0 ci = 0 := by
        refine subtreeMass_none fuel t0 ci ?_
        show nodesGet t0.nodes ci = none
        rw [← hn]
        exact hg
      rw [List.map_cons, List.sum_cons, hzero, f4]
      ring
    · cases nd with
      | Leaf ii =>
        rcases hgi : t.get_item ii with _ | star
        · simp only [galaxy.mdChildStep, hg, hgi] at hfold
          rw [mdFold_none] at hfold
          exact Option.noConfusion hfold
        · simp only [galaxy.mdChildStep, hg, hgi] at hfold
          obtain ⟨f1, f2, f3, f4⟩ := ih2 t0 t (mass + star.mass) _ res hn hi hl hfold
          refine ⟨f1, f2, f3, ?_⟩
          have hget0 : t0.get ci = some (.Leaf ii) := by
            show nodesGet t0.nodes ci = _
            rw [← hn]
            exact hg
          have hgi0 : t0.get_item ii = some star := by
            show t0.items.get? ii = some star
            rw [← hi]
            exact hgi
          have hsm : subtreeMass fuel t0 ci = star.mass := by
            rw [subtreeMass_leaf fuel t0 ci ii hget0, hgi0]
          rw [List.map_cons, List.sum_cons, hsm, f4]
          ring
      | Internal ri =>
        rcases hrec : galaxy.update_mass_distribution_inner fuel t ci with _ | t2
        · simp only [galaxy.mdChildStep, hg, hrec] at hfold
          rw [mdFold_none] at hfold
          exact Option.noConfusion hfold
        · rcases hgr : t2.get_internal ri with _ | region
          · simp only [galaxy.mdChildStep, hg, hrec, hgr] at hfold
            rw [mdFold_none] at hfold
            exact Option.noConfusion hfold
          · simp only [galaxy.mdChildStep, hg, hrec, hgr] at hfold
            obtain ⟨g1, g2, g3, g4⟩ := ihF t ci t2 hrec
            obtain ⟨comX, hcomX⟩ := g4 ri hg
            rw [hgr] at hcomX
            obtain rfl := Option.some.inj hcomX
            obtain ⟨f1, f2, f3, f4⟩ := ih2 t0 t2 _ _ res (g1.trans hn)
              (g2.trans hi) (g3.trans hl) hfold
            refine ⟨f1, f2, f3, ?_⟩
            have hcongr : subtreeMass fuel t0 ci = subtreeMass fuel t ci :=
              subtreeMass_congr fuel t0 t ci hn.symm hi.symm
            rw [List.map_cons, List.sum_cons, hcongr, f4]
            show _ = mass + (subtreeMass fuel t ci
              + (List.map (fun c => subtreeMass fuel t0 c) cs).sum)
            ring

/-- `update_mass_distribution_inner` leaves the node map and items
untouched, keeps the internal store length, and on success stores at the
node's region index a region whose mass is exactly the subtree mass. -/
theorem updateMD_inner_spec :
    ∀ (fuel : ℕ) (t : Quadtree galaxy.Star galaxy.Region) (k : HilbertIndex)
      (t' : Quadtree galaxy.Star galaxy.Region),
    galaxy.update_mass_distribution_inner fuel t k = some t' →
    t'.nodes = t.nodes ∧ t'.items = t.items ∧
      t'.internal.length = t.internal.length ∧
    ∀ ri, t.get k = some (.Internal ri) →
      ∃ com, t'.get_internal ri = some ⟨com, subtreeMass fuel t k⟩ := by
  intro fuel
  induction fuel with
  | zero =>
    intro t k t' h
    exact absurd h (by simp [galaxy.update_mass_distribution_inner])
  | succ fuel ih =>
    intro t k t' h
    simp only [galaxy.update_mass_distribution_inner] at h
    rcases hfold : List.foldl (galaxy.mdChildStep
        (fun t2 i2 => galaxy.update_mass_distribution_inner fuel t2 i2))
        (some (t, 0, ⟨0, 0⟩)) (HilbertIndex.children k) with _ | res
    · rw [show (HilbertIndex.children k).foldl (galaxy.mdChildStep
          (fun t2 i2 => galaxy.update_mass_distribution_inner fuel t2 i2))
          (some (t, 0, ⟨0, 0⟩)) = none from hfold] at h
      exact Option.noConfusion h
    · obtain ⟨t2, mass, com⟩ := res
      rw [show (HilbertIndex.children k).foldl (galaxy.mdChildStep
          (fun t2 i2 => galaxy.update_mass_distribution_inner fuel t2 i2))
          (some (t, 0, ⟨0, 0⟩)) = some (t2, mass, com) from hfold] at h
      simp only at h
      obtain ⟨f1, f2, f3, f4⟩ := mdFold_spec fuel ih (HilbertIndex.children k)
        t t 0 ⟨0, 0⟩ (t2, mass, com) rfl rfl rfl hfold
      have f4' : mass = 0
          + ((HilbertIndex.children k).map (fun c => subtreeMass fuel t c)).sum := f4
      rcases hg2 : t2.get k with _ | nd
      · rw [hg2] at h
        exact Option.noConfusion h
      · cases nd with
        | Leaf i =>
          rw [hg2] at h
          exact Option.noConfusion h
        | Internal ri =>
          rw [hg2] at h
          set com2 : Vec2d := if mass ≠ 0 then ⟨com.x / mass, com.y / mass⟩ else com
            with hcom2
          simp only [Quadtree.set_internal] at h
          split_ifs at h with hlen
          obtain rfl := Option.some.inj h
          refine ⟨f1, f2, ?_, ?_⟩
          · show (t2.internal.set ri _).length = t.internal.length
            rw [List.length_set]
            exact f3
          · intro ri' hri'
            have hsame : t2.get k = t.get k := by
              show nodesGet t2.nodes k = nodesGet t.nodes k
              rw [f1]
            rw [hsame, hri'] at hg2
            obtain rfl : ri' = ri := QuadtreeNode.Internal.inj (Option.some.inj hg2)
            refine ⟨com2, ?_⟩
            show ((t2.internal.set ri' _).get? ri').bind id = _
            have hrilen : ri' < t2.internal.length := by omega
            rw [List.get?_set_eq_of_lt _ hrilen]
            have hM : subtreeMass (fuel + 1) t k = mass := by
              rw [subtreeMass_internal_succ fuel t k ri' hri']
              rw [f4']
              ring
            rw [hM]
            rfl

/-- C6: after `update_mass_distribution` succeeds on a well-formed quadtree
(nodup keys, valid indices, parent closure, fuel covering every node's
depth) whose root node is Internal, the root's stored region mass equals the
sum of the masses of all bodies stored in Leaf nodes of the tree
(`leafMassSum`); bodies in the items list not referenced by any Leaf node
contribute nothing. -/
theorem update_mass_distribution_root_mass (fuel : ℕ)
    (t t' : Quadtree galaxy.Star galaxy.Region) (r0 : ℕ)
    (hnd : t.nodes.Pairwise (fun a b => a.1 ≠ b.1))
    (hpcl : ∀ p ∈ t.nodes, 0 < p.1.depth →
      isInternalOpt (t.get (parentIdx p.1)) = true)
    (hkv : ∀ p ∈ t.nodes, p.1.index < 4 ^ p.1.depth)
    (hdep : ∀ p ∈ t.nodes, p.1.depth ≤ fuel)
    (hroot : t.get ⟨0, 0⟩ = some (.Internal r0))
    (hrun : galaxy.update_mass_distribution fuel t = some t') :
    ∃ com, t'.get_internal r0 = some ⟨com, leafMassSum t⟩ := by
  have hpc : ∀ k' n, t.get k' = some n → 0 < k'.depth →
      ∃ r, t.get (parentIdx k') = some (QuadtreeNode.Internal r) := by
    intro k' n hk hd
    have hm := nodesGet_some_mem t.nodes k' n hk
    have hb := hpcl (k', n) hm hd
    rcases hp : t.get (parentIdx k') with _ | nd
    · rw [hp] at hb
      exact absurd hb (by simp [isInternalOpt])
    · cases nd with
      | Internal r => exact ⟨r, rfl⟩
      | Leaf i =>
        rw [hp] at hb
        exact absurd hb (by simp [isInternalOpt])
  simp only [galaxy.update_mass_distribution, hroot] at hrun
  obtain ⟨f1, f2, f3, f4⟩ := updateMD_inner_spec fuel t ⟨0, 0⟩ t' hrun
  obtain ⟨com, hcom⟩ := f4 r0 hroot
  refine ⟨com, ?_⟩
  rw [hcom]
  have hdep2 : ∀ p ∈ t.nodes, inSubtree ⟨0, 0⟩ p.1 →
      p.1.depth ≤ (⟨0, 0⟩ : HilbertIndex).depth + fuel := by
    intro p hp _
    show p.1.depth ≤ 0 + fuel
    have := hdep p hp
    omega
  have hall : t.nodes.filter (fun p => decide (inSubtree ⟨0, 0⟩ p.1)) = t.nodes := by
    rw [List.filter_eq_self]
    intro p hp
    rw [decide_eq_true_eq]
    refine ⟨Nat.zero_le _, ?_⟩
    show p.1.index / 4 ^ (p.1.depth - 0) = 0
    rw [Nat.sub_zero]
    exact Nat.div_eq_of_lt (hkv p hp)
  have hmass : subtreeMass fuel t ⟨0, 0⟩ = leafMassSum t := by
    rw [subtreeMass_eq_filter_sum fuel t ⟨0, 0⟩ hnd hpc hdep2, hall]
    rfl
  rw [hmass]

set_option maxRecDepth 1000000 in
/-- Witness for C6: a concrete two-star tree (masses 1 and 1); after
aggregation the root's region mass is the leaf-mass sum 2. -/
theorem update_mass_distribution_root_mass_witness :
    ∃ com, (⟨⟨0, 0⟩, ⟨4, 4⟩, [⟨⟨1, 1⟩, ⟨0, 0⟩, 1⟩, ⟨⟨3, 3⟩, ⟨0, 0⟩, 1⟩],
        [some ⟨⟨2, 2⟩, 2⟩],
        [(⟨2, 1⟩, QuadtreeNode.Leaf 1), (⟨0, 1⟩, QuadtreeNode.Leaf 0),
         (⟨0, 0⟩, QuadtreeNode.Internal 0)]⟩ :
        Quadtree galaxy.Star galaxy.Region).get_internal 0
      = some ⟨com, leafMassSum ⟨⟨0, 0⟩, ⟨4, 4⟩,
          [⟨⟨1, 1⟩, ⟨0, 0⟩, 1⟩, ⟨⟨3, 3⟩, ⟨0, 0⟩, 1⟩], [none],
          [(⟨2, 1⟩, QuadtreeNode.Leaf 1), (⟨0, 1⟩, QuadtreeNode.Leaf 0),
           (⟨0, 0⟩, QuadtreeNode.Internal 0)]⟩⟩ :=
  update_mass_distribution_root_mass 2 _ _ 0 (by decide) (by decide) (by decide)
    (by decide) (by decide) (by with_unfolding_all rfl)
